import Mathlib

/-!
Verification of the RakNet transport core of HighMC (a Go MCPE server).

This file gives a shallow embedding of the parts of the source that the
frozen claims are about:

* the binary codec of route.go (byte-level reads and writes over lists of
  byte values, a byte being a natural number below 256);
* the ACK/NACK run-length codec of part_009 (EncodeAck / DecodeAck);
* the encapsulated-packet frame codec of part_008 (Bytes / NewEncapsulated);
* the per-session state machine of session.go and raknet_packet.go
  (NewSession, preEncapsulated, joinSplits, GeneralDataPacket.Handle, the
  handshake handlers, the liveness timer, and the recovery-queue tick).

Go unsigned integers are embedded as naturals together with explicit
reductions modulo 2^8, 2^16, 2^24, 2^32 or 2^64 where the Go code relies
on fixed-width wrap-around.  Go maps that are only ever iterated in sorted
key order are embedded as key-sorted association lists; the one map that
the source iterates in unspecified order (the recovery queue) is embedded
as an explicit entry list whose order is the iteration order.  Fallible
reads (Go panics on buffer overflow) return Option.
-/

set_option maxRecDepth 16384

namespace HighMC

/-- 2^16, the modulus of Go uint16 arithmetic. -/
def u16Mod : Nat := 65536

/-- 2^24, the range of a 3-byte triad. -/
def u24Mod : Nat := 16777216

/-- 2^32, the modulus of Go uint32 arithmetic. -/
def u32Mod : Nat := 4294967296

/-- Go uint32 addition: wraps modulo 2^32. -/
def u32add (a b : Nat) : Nat := (a + b) % u32Mod

/-- Go uint32 subtraction a - b: wraps modulo 2^32. -/
def u32sub (a b : Nat) : Nat := (a % u32Mod + (u32Mod - b % u32Mod)) % u32Mod

/-! ## Binary codec (route.go)

Buffers are lists of byte values.  Writers produce the exact byte list the
Go writer emits; readers consume from the front and return the decoded
value together with the remaining buffer, or none where the Go reader
would hit an Overflow panic. -/

/-- route.go WriteByte: one byte. -/
def WriteByte (n : Nat) : List Nat := [n % 256]

/-- route.go WriteShort: big-endian uint16. -/
def WriteShort (n : Nat) : List Nat := [n / 256 % 256, n % 256]

/-- route.go WriteInt: big-endian uint32. -/
def WriteInt (n : Nat) : List Nat :=
  [n / 16777216 % 256, n / 65536 % 256, n / 256 % 256, n % 256]

/-- route.go WriteLTriad: little-endian 3-byte triad. -/
def WriteLTriad (n : Nat) : List Nat := [n % 256, n / 256 % 256, n / 65536 % 256]

/-- route.go WriteLLong: little-endian uint64.  The source writes the bytes
byte(n), byte(n>>8), ..., byte(n>>48), byte(56): the last byte is the
literal constant 56 instead of byte(n>>56). -/
def WriteLLong (n : Nat) : List Nat :=
  [n % 256, n / 256 % 256, n / 65536 % 256, n / 16777216 % 256,
   n / 4294967296 % 256, n / 1099511627776 % 256, n / 281474976710656 % 256,
   56]

/-- route.go ReadByte. -/
def ReadByteO : List Nat → Option (Nat × List Nat)
  | [] => none
  | b :: rest => some (b, rest)

/-- route.go ReadShort: big-endian uint16. -/
def ReadShortO : List Nat → Option (Nat × List Nat)
  | b0 :: b1 :: rest => some (b0 * 256 + b1, rest)
  | _ => none

/-- route.go ReadInt: big-endian uint32. -/
def ReadIntO : List Nat → Option (Nat × List Nat)
  | b0 :: b1 :: b2 :: b3 :: rest =>
    some (b0 * 16777216 + b1 * 65536 + b2 * 256 + b3, rest)
  | _ => none

/-- route.go ReadLTriad: little-endian 3-byte triad. -/
def ReadLTriadO : List Nat → Option (Nat × List Nat)
  | b0 :: b1 :: b2 :: rest => some (b2 * 65536 + b1 * 256 + b0, rest)
  | _ => none

/-- route.go ReadLLong: little-endian uint64. -/
def ReadLLongO : List Nat → Option (Nat × List Nat)
  | b0 :: b1 :: b2 :: b3 :: b4 :: b5 :: b6 :: b7 :: rest =>
    some (b7 * 72057594037927936 + b6 * 281474976710656 + b5 * 1099511627776 +
          b4 * 4294967296 + b3 * 16777216 + b2 * 65536 + b1 * 256 + b0, rest)
  | _ => none

/-- route.go Read(rd, n): take exactly n bytes or fail. -/
def readN (n : Nat) (bs : List Nat) : Option (List Nat × List Nat) :=
  if n ≤ bs.length then some (bs.take n, bs.drop n) else none

/-- C8: the little-endian u64 round trip fails.  WriteLLong writes the
constant byte 56 where byte(n >> 56) was intended, so reading back the
encoding of 0 yields 56·2^56, not 0.  This theorem evaluates the code at
the failing input x = 0. -/
theorem readLLong_writeLLong_zero_broken :
    ReadLLongO (WriteLLong 0) = some (56 * 72057594037927936, []) ∧
      56 * 72057594037927936 ≠ 0 := by
  constructor
  · rfl
  · decide

/-! ## Encapsulated packets (part_008) -/

/-- part_008 EncapsulatedPacket.  Buffer is the payload byte list; the
remaining fields mirror the Go struct (Go zero values are 0 / false / []). -/
structure EncapsulatedPacket where
  Reliability : Nat := 0
  HasSplit : Bool := false
  MessageIndex : Nat := 0
  OrderIndex : Nat := 0
  OrderChannel : Nat := 0
  SplitCount : Nat := 0
  SplitID : Nat := 0
  SplitIndex : Nat := 0
  Buffer : List Nat := []
deriving Repr, DecidableEq

/-- The flags byte written by EncapsulatedPacket.Bytes:
reliability<<5 | (hasSplit ? 1<<4 : 0), in Go byte arithmetic. -/
def epFlags (ep : EncapsulatedPacket) : Nat :=
  ep.Reliability % 256 * 32 % 256 + (if ep.HasSplit then 16 else 0)

/-- part_008 EncapsulatedPacket.Bytes: the encoded frame.  The length field
is WriteShort(uint16(len(payload)) << 3), a bit count in uint16 arithmetic. -/
def EncapsulatedBytes (ep : EncapsulatedPacket) : List Nat :=
  WriteByte (epFlags ep) ++
  WriteShort (ep.Buffer.length % u16Mod * 8 % u16Mod) ++
  (if 0 < ep.Reliability then
    (if 2 ≤ ep.Reliability ∧ ep.Reliability ≠ 5 then WriteLTriad ep.MessageIndex else []) ++
    (if ep.Reliability ≤ 4 ∧ ep.Reliability ≠ 2 then
      WriteLTriad ep.OrderIndex ++ WriteByte ep.OrderChannel else [])
  else []) ++
  (if ep.HasSplit then
    WriteInt ep.SplitCount ++ WriteShort ep.SplitID ++ WriteInt ep.SplitIndex
  else []) ++
  ep.Buffer

/-- part_008 NewEncapsulated: decode one encapsulated packet from the front
of a buffer; none where the Go code would panic on Overflow. -/
def NewEncapsulated (buf : List Nat) : Option (EncapsulatedPacket × List Nat) :=
  match ReadByteO buf with
  | none => none
  | some (flags, b1) =>
    let rel := flags / 32
    let hasSplit := flags / 16 % 2 = 1
    match ReadShortO b1 with
    | none => none
    | some (l, b2) =>
      let length := l / 8 + (if l % 8 ≠ 0 then 1 else 0)
      let step1 : Option (Nat × List Nat) :=
        if 0 < rel ∧ 2 ≤ rel ∧ rel ≠ 5 then ReadLTriadO b2 else some (0, b2)
      match step1 with
      | none => none
      | some (msgIdx, b3) =>
        let step2 : Option (Nat × Nat × List Nat) :=
          if 0 < rel ∧ rel ≤ 4 ∧ rel ≠ 2 then
            match ReadLTriadO b3 with
            | none => none
            | some (ordIdx, b4) =>
              match ReadByteO b4 with
              | none => none
              | some (ch, b5) => some (ordIdx, ch, b5)
          else some (0, 0, b3)
        match step2 with
        | none => none
        | some (ordIdx, ordCh, b5) =>
          let step3 : Option (Nat × Nat × Nat × List Nat) :=
            if hasSplit then
              match ReadIntO b5 with
              | none => none
              | some (sc, b6) =>
                match ReadShortO b6 with
                | none => none
                | some (sid, b7) =>
                  match ReadIntO b7 with
                  | none => none
                  | some (si, b8) => some (sc, sid, si, b8)
            else some (0, 0, 0, b5)
          match step3 with
          | none => none
          | some (sc, sid, si, b8) =>
            match readN length b8 with
            | none => none
            | some (payload, b9) =>
              some ({ Reliability := rel, HasSplit := hasSplit,
                      MessageIndex := msgIdx, OrderIndex := ordIdx,
                      OrderChannel := ordCh, SplitCount := sc, SplitID := sid,
                      SplitIndex := si, Buffer := payload }, b9)

/-! ### Read/write round trips for the primitive codecs -/

theorem readByteO_writeByte (n : Nat) (rest : List Nat) :
    ReadByteO (WriteByte n ++ rest) = some (n % 256, rest) := rfl

theorem readShortO_writeShort (n : Nat) (rest : List Nat) :
    ReadShortO (WriteShort n ++ rest) = some (n % 65536, rest) := by
  simp only [WriteShort, List.cons_append, List.nil_append, ReadShortO,
    Option.some.injEq, Prod.mk.injEq]
  exact ⟨by omega, trivial⟩

theorem readLTriadO_writeLTriad (n : Nat) (rest : List Nat) :
    ReadLTriadO (WriteLTriad n ++ rest) = some (n % 16777216, rest) := by
  simp only [WriteLTriad, List.cons_append, List.nil_append, ReadLTriadO,
    Option.some.injEq, Prod.mk.injEq]
  exact ⟨by omega, trivial⟩

theorem readIntO_writeInt (n : Nat) (rest : List Nat) :
    ReadIntO (WriteInt n ++ rest) = some (n % 4294967296, rest) := by
  simp only [WriteInt, List.cons_append, List.nil_append, ReadIntO,
    Option.some.injEq, Prod.mk.injEq]
  exact ⟨by omega, trivial⟩

/-- The bit-count length field of an encapsulated packet:
uint16(L) << 3 recovered by the decoder is 8·(L mod 8192). -/
theorem ep_length_field (L : Nat) : L * 8 % 65536 = 8 * (L % 8192) := by
  omega

theorem eight_mul_div (k : Nat) : 8 * k / 8 = k := by omega

theorem eight_mul_mod (k : Nat) : 8 * k % 8 = 0 := by omega

theorem mod65536_mod8192 (L : Nat) : L % 65536 % 8192 = L % 8192 := by omega

theorem eight_mod8192_lt (k : Nat) : 8 * (k % 8192) % 65536 = 8 * (k % 8192) := by
  omega

/-- Decoding the encoding of an encapsulated packet recovers the first
L mod 8192 bytes of the payload, L being the payload length (the length
field stores the bit count modulo 2^16). -/
theorem newEncapsulated_payload (ep : EncapsulatedPacket)
    (h8 : ep.Reliability < 8) :
    (NewEncapsulated (EncapsulatedBytes ep)).map (fun p => p.1.Buffer) =
      some (ep.Buffer.take (ep.Buffer.length % 8192)) := by
  have hmodle : ep.Buffer.length % 8192 ≤ ep.Buffer.length :=
    Nat.mod_le _ _
  cases hs : ep.HasSplit <;>
    interval_cases h : ep.Reliability <;>
      simp [EncapsulatedBytes, epFlags, NewEncapsulated, hs, h,
        readByteO_writeByte, readShortO_writeShort, readLTriadO_writeLTriad,
        readIntO_writeInt, ep_length_field, eight_mul_div, eight_mul_mod,
        mod65536_mod8192, eight_mod8192_lt, u16Mod, readN, hmodle]

/-- C10: the encapsulated wire format stores the payload length as a 16-bit
bit count, so decoding the encoding recovers the payload exactly for
payloads of at most 8191 bytes, and loses the payload (the length field
wraps modulo 2^16) for payloads of 8192 bytes or more. -/
theorem encapsulated_bitlength_roundtrip (ep : EncapsulatedPacket)
    (h8 : ep.Reliability < 8) :
    (ep.Buffer.length ≤ 8191 →
      (NewEncapsulated (EncapsulatedBytes ep)).map (fun p => p.1.Buffer) =
        some ep.Buffer) ∧
    (8192 ≤ ep.Buffer.length →
      (NewEncapsulated (EncapsulatedBytes ep)).map (fun p => p.1.Buffer) ≠
        some ep.Buffer) := by
  have h := newEncapsulated_payload ep h8
  constructor
  · intro hle
    rw [h, Nat.mod_eq_of_lt (by omega), List.take_length]
  · intro hge heq
    rw [h] at heq
    have hlen := congrArg List.length (Option.some.inj heq)
    simp only [List.length_take] at hlen
    omega

/-- Witness for C10 at concrete packets: a 3-byte ordered-reliable payload
round-trips; an 8192-byte payload does not. -/
theorem encapsulated_bitlength_roundtrip_witness :
    ((NewEncapsulated (EncapsulatedBytes
        { Reliability := 3, HasSplit := false, MessageIndex := 5,
          OrderIndex := 9, OrderChannel := 1, Buffer := [1, 2, 3] })).map
      (fun p => p.1.Buffer) = some [1, 2, 3]) ∧
    ((NewEncapsulated (EncapsulatedBytes
        { Reliability := 2, Buffer := List.replicate 8192 7 })).map
      (fun p => p.1.Buffer) ≠ some (List.replicate 8192 7)) :=
  ⟨(encapsulated_bitlength_roundtrip _ (by decide)).1 (by decide),
   (encapsulated_bitlength_roundtrip _ (by decide)).2
     (by simp only [List.length_replicate]; exact le_rfl)⟩

/-! ## Go maps as association lists

A Go map[uint32]V is a finite partial function.  The session maps are
embedded as key-sorted association lists with pairwise-distinct keys:
insertion keeps the list sorted, lookup and deletion are by key.  The only
iteration the session performs on these maps goes through GetSortedKeys
(part_005), which visits keys in ascending order, so the sorted
representation realizes exactly the iteration order the code sees.  (The
recovery map, which the code iterates in unspecified order, is embedded
separately with an explicit iteration-order list.) -/

/-- Map lookup. -/
def amGet {α : Type} (k : Nat) : List (Nat × α) → Option α
  | [] => none
  | (k', v) :: rest => if k = k' then some v else amGet k rest

/-- Map insert (replacing an existing binding), keeping keys sorted. -/
def amInsert {α : Type} (k : Nat) (v : α) : List (Nat × α) → List (Nat × α)
  | [] => [(k, v)]
  | (k', v') :: rest =>
    if k < k' then (k, v) :: (k', v') :: rest
    else if k = k' then (k, v) :: rest
    else (k', v') :: amInsert k v rest

/-- Map delete. -/
def amErase {α : Type} (k : Nat) : List (Nat × α) → List (Nat × α)
  | [] => []
  | (k', v') :: rest => if k = k' then rest else (k', v') :: amErase k rest

/-- The key list of a map. -/
def amKeys {α : Type} (m : List (Nat × α)) : List Nat := m.map Prod.fst

/-- part_005 GetSortedKeys: the keys of a map, sorted ascending. -/
def GetSortedKeys {α : Type} (m : List (Nat × α)) : List Nat :=
  List.insertionSort (· ≤ ·) (amKeys m)

/-- Set insert for a Go map used as a set (packetWindow, ack/nack queues),
keeping the elements sorted and distinct. -/
def pwInsert (k : Nat) : List Nat → List Nat
  | [] => [k]
  | k' :: rest =>
    if k < k' then k :: k' :: rest
    else if k = k' then k' :: rest
    else k' :: pwInsert k rest

/-! ## The session (session.go) -/

/-- session.go windowSize. -/
def windowSize : Nat := 2048

/-- session.go MaxPingTries. -/
def MaxPingTries : Nat := 3

/-- session.go session struct (the fields the claims are about).  Times are
milliseconds; timerMs is the duration the liveness timer was last reset
to; recovery maps a sequence number to the DataPacket's send time, listed
in the map's iteration order. -/
structure Session where
  Status : Nat := 0
  ID : Nat := 0
  mtuSize : Nat := 0
  ackQueue : List Nat := []
  nackQueue : List Nat := []
  recovery : List (Nat × Nat) := []
  packetWindow : List Nat := []
  windowBorder0 : Nat := 0
  windowBorder1 : Nat := 0
  reliableWindow : List (Nat × EncapsulatedPacket) := []
  reliableBorder0 : Nat := 0
  reliableBorder1 : Nat := 0
  seqNumber : Nat := 0
  lastSeq : Nat := 0
  lastMsgIndex : Nat := 0
  splitID : Nat := 0
  splitTable : List (Nat × List (Nat × List Nat)) := []
  messageIndex : Nat := 0
  pingTries : Nat := 0
  timerMs : Nat := 0
  playerCreated : Bool := false
deriving Repr, DecidableEq

/-- session.go NewSession: seqNumber starts at 1<<32 - 1 (uint32), lastSeq
and lastMsgIndex at ^uint32(0); both window borders are [0, windowSize);
the liveness timer starts at 1500 ms. -/
def NewSession : Session where
  Status := 0
  windowBorder0 := 0
  windowBorder1 := windowSize
  reliableBorder0 := 0
  reliableBorder1 := windowSize
  seqNumber := u32Mod - 1
  lastSeq := u32Mod - 1
  lastMsgIndex := u32Mod - 1
  timerMs := 1500

/-- The inner drain loop of session.preEncapsulated: iterate the sorted
keys of reliableWindow, delivering and evicting entries while each key is
exactly lastMsgIndex+1 (in uint32 arithmetic), and stop at the first gap.
Returns the updated session and the packets handed to handleEncapsulated,
in order. -/
def drainLoop : List Nat → Session → Session × List EncapsulatedPacket
  | [], s => (s, [])
  | k :: ks, s =>
    if u32sub k s.lastMsgIndex ≠ 1 then (s, [])
    else
      let s1 := { s with lastMsgIndex := u32add s.lastMsgIndex 1,
                         reliableBorder0 := u32add s.reliableBorder0 1,
                         reliableBorder1 := u32add s.reliableBorder1 1 }
      let delivered := ((amGet k s1.reliableWindow).getD {})
      let s2 := { s1 with reliableWindow := amErase k s1.reliableWindow }
      let r := drainLoop ks s2
      (r.1, delivered :: r.2)

/-- session.go preEncapsulated: the reliable reorder buffer.  A packet
whose reliability carries a message index is dropped outside
reliableBorder, delivered (followed by draining the buffered run) when its
index is exactly lastMsgIndex+1, and buffered in reliableWindow otherwise;
packets without a message index pass straight through.  The returned list
holds the packets handed to handleEncapsulated, in call order. -/
def preEncapsulated (s : Session) (ep : EncapsulatedPacket) :
    Session × List EncapsulatedPacket :=
  if 2 ≤ ep.Reliability ∧ ep.Reliability ≠ 5 then
    if ep.MessageIndex < s.reliableBorder0 ∨ s.reliableBorder1 ≤ ep.MessageIndex then
      (s, [])
    else if u32sub ep.MessageIndex s.lastMsgIndex = 1 then
      let s1 := { s with lastMsgIndex := u32add s.lastMsgIndex 1,
                         reliableBorder0 := u32add s.reliableBorder0 1,
                         reliableBorder1 := u32add s.reliableBorder1 1 }
      if 0 < s1.reliableWindow.length then
        let r := drainLoop (GetSortedKeys s1.reliableWindow) s1
        (r.1, ep :: r.2)
      else (s1, [ep])
    else ({ s with reliableWindow := amInsert ep.MessageIndex ep s.reliableWindow }, [])
  else (s, [ep])

/-- Feed a list of packets through preEncapsulated in order, accumulating
everything handed to handleEncapsulated. -/
def preEncapsulatedAll (s : Session) :
    List EncapsulatedPacket → Session × List EncapsulatedPacket
  | [] => (s, [])
  | ep :: rest =>
    let r1 := preEncapsulated s ep
    let r2 := preEncapsulatedAll r1.1 rest
    (r2.1, r1.2 ++ r2.2)

/-- session.go joinSplits: insert the fragment into the split table (only
if its split index is not already present); when the entry count for its
split id equals the packet's SplitCount, concatenate the payloads in
ascending split-index order into a fresh EncapsulatedPacket (Go
new(EncapsulatedPacket): every metadata field is the zero value), drop the
table entry, and hand the packet to handleEncapsulated. -/
def joinSplits (s : Session) (ep : EncapsulatedPacket) :
    Session × List EncapsulatedPacket :=
  if s.Status < 3 then (s, [])
  else
    let tab0 := (amGet ep.SplitID s.splitTable).getD []
    let tab := if (amGet ep.SplitIndex tab0).isSome then tab0
               else amInsert ep.SplitIndex ep.Buffer tab0
    if tab.length = ep.SplitCount then
      let sep : EncapsulatedPacket :=
        { Buffer := (List.range ep.SplitCount).flatMap fun i => (amGet i tab).getD [] }
      ({ s with splitTable := amErase ep.SplitID s.splitTable }, [sep])
    else ({ s with splitTable := amInsert ep.SplitID tab s.splitTable }, [])

/-- Feed a list of fragments through joinSplits in order, accumulating the
reassembled packets handed to handleEncapsulated. -/
def joinSplitsAll (s : Session) :
    List EncapsulatedPacket → Session × List EncapsulatedPacket
  | [] => (s, [])
  | ep :: rest =>
    let r1 := joinSplits s ep
    let r2 := joinSplitsAll r1.1 rest
    (r2.1, r1.2 ++ r2.2)

/-- raknet_packet.go GeneralDataPacket.Handle: window check, packetWindow
and ACK enqueue, NACK enqueue for the gap, and — only when the uint32
difference to lastSeq is at least 1 — advancement of lastSeq and both
window borders followed by re-entry of the contained encapsulated packets
into preEncapsulated.  The middle component lists the ackUpdate messages
posted to AckChan as (isNack, seqs); the last component lists the packets
handed onward to handleEncapsulated. -/
def GeneralDataPacketHandle (s : Session) (seqNum : Nat)
    (packets : List EncapsulatedPacket) :
    Session × List (Bool × List Nat) × List EncapsulatedPacket :=
  if seqNum < s.windowBorder0 ∨ s.windowBorder1 ≤ seqNum then (s, [], [])
  else
    let s1 := { s with packetWindow := pwInsert seqNum s.packetWindow }
    let ackMsgs : List (Bool × List Nat) := [(false, [seqNum])]
    let diff := u32sub seqNum s1.lastSeq
    let nackMsgs : List (Bool × List Nat) :=
      if diff ≠ 1 then
        let start := u32add s1.lastSeq 1
        (((List.range (seqNum - start)).map (start + ·)).filter
          fun i => decide (i ∉ s1.packetWindow)).map fun i => (true, [i])
      else []
    if 1 ≤ diff then
      let s2 := { s1 with lastSeq := seqNum,
                          windowBorder0 := u32add s1.windowBorder0 diff,
                          windowBorder1 := u32add s1.windowBorder1 diff }
      let r := preEncapsulatedAll s2 packets
      (r.1, ackMsgs ++ nackMsgs, r.2)
    else (s1, ackMsgs ++ nackMsgs, [])

/-- raknet_packet.go OpenConnectionRequest1.Handle: drops only when
Status > 1; otherwise replies with OpenConnectionReply1 and sets Status 1.
The second component counts reply packets sent. -/
def OpenConnectionRequest1Handle (s : Session) : Session × Nat :=
  if 1 < s.Status then (s, 0) else ({ s with Status := 1 }, 1)

/-- raknet_packet.go OpenConnectionRequest2.Handle: drops unless
Status = 1; otherwise records client id and mtu, replies, sets Status 2. -/
def OpenConnectionRequest2Handle (s : Session) (clientID mtu : Nat) :
    Session × Nat :=
  if s.Status ≠ 1 then (s, 0)
  else ({ s with Status := 2, ID := clientID, mtuSize := mtu }, 1)

/-- raknet_packet.go ClientConnect.Handle: drops unless Status = 2;
otherwise replies with ServerHandshake, leaving Status at 2. -/
def ClientConnectHandle (s : Session) : Session × Nat :=
  if s.Status ≠ 2 then (s, 0) else (s, 1)

/-- session.go connComplete: creates the player object iff Status = 3. -/
def connComplete (s : Session) : Session :=
  if s.Status ≠ 3 then s else { s with playerCreated := true }

/-- raknet_packet.go ClientHandshake.Handle: unconditionally sets Status 3
and runs connComplete; no state check, no reply. -/
def ClientHandshakeHandle (s : Session) : Session × Nat :=
  (connComplete { s with Status := 3 }, 0)

/-- session.go sendEncapsulatedDirect seen from the sequence counter:
atomic.AddUint32(&seqNumber, 1) returns the new value, which becomes the
outbound DataPacket's sequence number. -/
def sendEncapsulatedDirect (s : Session) : Session × Nat :=
  ({ s with seqNumber := u32add s.seqNumber 1 }, u32add s.seqNumber 1)

/-- Events of the liveness machinery of session.work. -/
inductive SessionEvent where
  | closedTimeout
  | pingSent (id : Nat)
deriving Repr, DecidableEq

/-- session.go work, the timeout.C branch: close with reason timeout when
not Established or out of ping retries, else send a Ping whose 64-bit id
packs two random uint32 draws, bump pingTries, and reset the timer to the
2000 ms timeout. -/
def timeoutFire (s : Session) (r1 r2 : Nat) : Session × List SessionEvent :=
  if s.Status < 3 ∨ MaxPingTries ≤ s.pingTries then
    (s, [SessionEvent.closedTimeout])
  else
    ({ s with pingTries := s.pingTries + 1, timerMs := 2000 },
     [SessionEvent.pingSent (r1 % u32Mod * u32Mod + r2 % u32Mod)])

/-- raknet_packet.go Pong.Handle: a Pong while pingTries > 0 resets the
timer to the 2000 ms timeout and pingTries to zero. -/
def PongHandle (s : Session) : Session :=
  if 0 < s.pingTries then { s with timerMs := 2000, pingTries := 0 } else s

/-- session.go update, the recovery loop: iterate the recovery entries in
map-iteration order, retransmitting and deleting each entry whose send
time is more than 8000 ms in the past, and break at the first entry that
is not stale.  Returns the remaining entries and the retransmitted
sequence numbers, in order. -/
def updateRecovery (entries : List (Nat × Nat)) (now : Nat) :
    List (Nat × Nat) × List Nat :=
  match entries with
  | [] => ([], [])
  | (seq, t) :: rest =>
    if t + 8000 < now then
      let (r, sent) := updateRecovery rest now
      (r, seq :: sent)
    else ((seq, t) :: rest, [])

/-- session.go handleAckUpdate: a received ACK deletes the listed
sequences from recovery; a received NACK retransmits the stored packet of
every listed sequence still in recovery (second component); queue updates
enqueue into ackQueue/nackQueue. -/
def handleAckUpdate (s : Session) (got nack : Bool) (seqs : List Nat) :
    Session × List Nat :=
  if got then
    if nack then (s, seqs.filter fun q => (amGet q s.recovery).isSome)
    else ({ s with recovery := seqs.foldl (fun r q => amErase q r) s.recovery }, [])
  else
    if nack then
      ({ s with nackQueue := seqs.foldl (fun l q => pwInsert q l) s.nackQueue }, [])
    else
      ({ s with ackQueue := seqs.foldl (fun l q => pwInsert q l) s.ackQueue }, [])

/-! ## Frame lemmas: the reliable-reorder path only touches
lastMsgIndex, reliableBorder and reliableWindow. -/

theorem drainLoop_frame (ks : List Nat) (s : Session) :
    (drainLoop ks s).1.lastSeq = s.lastSeq ∧
    (drainLoop ks s).1.windowBorder0 = s.windowBorder0 ∧
    (drainLoop ks s).1.windowBorder1 = s.windowBorder1 ∧
    (drainLoop ks s).1.packetWindow = s.packetWindow := by
  induction ks generalizing s with
  | nil => exact ⟨rfl, rfl, rfl, rfl⟩
  | cons k ks ih =>
    by_cases h : u32sub k s.lastMsgIndex ≠ 1
    · simp [drainLoop, h]
    · simp only [drainLoop, if_neg h]
      exact ih _

theorem preEncapsulated_frame (s : Session) (ep : EncapsulatedPacket) :
    (preEncapsulated s ep).1.lastSeq = s.lastSeq ∧
    (preEncapsulated s ep).1.windowBorder0 = s.windowBorder0 ∧
    (preEncapsulated s ep).1.windowBorder1 = s.windowBorder1 ∧
    (preEncapsulated s ep).1.packetWindow = s.packetWindow := by
  by_cases h1 : 2 ≤ ep.Reliability ∧ ep.Reliability ≠ 5
  · by_cases h2 : ep.MessageIndex < s.reliableBorder0 ∨
        s.reliableBorder1 ≤ ep.MessageIndex
    · simp [preEncapsulated, h1, h2]
    · by_cases h3 : u32sub ep.MessageIndex s.lastMsgIndex = 1
      · by_cases h4 : 0 < s.reliableWindow.length
        · simp only [preEncapsulated, h1, h2, h3, h4, and_true, ne_eq,
            not_false_eq_true, if_true, if_false, ite_true, ite_false,
            and_self, not_true, not_false_iff, eq_self_iff_true, if_neg h2,
            if_pos h4]
          exact drainLoop_frame _ _
        · simp [preEncapsulated, h1, h2, h3, h4]
      · simp [preEncapsulated, h1, h2, h3]
  · simp [preEncapsulated, h1]

theorem preEncapsulatedAll_frame (l : List EncapsulatedPacket) (s : Session) :
    (preEncapsulatedAll s l).1.lastSeq = s.lastSeq ∧
    (preEncapsulatedAll s l).1.windowBorder0 = s.windowBorder0 ∧
    (preEncapsulatedAll s l).1.windowBorder1 = s.windowBorder1 ∧
    (preEncapsulatedAll s l).1.packetWindow = s.packetWindow := by
  induction l generalizing s with
  | nil => exact ⟨rfl, rfl, rfl, rfl⟩
  | cons ep l ih =>
    have h1 := preEncapsulated_frame s ep
    have h2 := ih (preEncapsulated s ep).1
    simp only [preEncapsulatedAll]
    exact ⟨h2.1.trans h1.1, h2.2.1.trans h1.2.1, h2.2.2.1.trans h1.2.2.1,
           h2.2.2.2.trans h1.2.2.2⟩

/-! ## C3: the counters are uint32, not 24-bit -/

/-- C3 counterexample: the claim says send_seq starts at 2^24−1 and wraps
modulo 2^24; NewSession initializes seqNumber (and lastSeq, lastMsgIndex)
to 2^32−1, which is not 2^24−1. -/
theorem newSession_counters_not_24bit :
    NewSession.seqNumber = u32Mod - 1 ∧ NewSession.lastSeq = u32Mod - 1 ∧
      NewSession.lastMsgIndex = u32Mod - 1 ∧ NewSession.seqNumber ≠ u24Mod - 1 := by
  refine ⟨rfl, rfl, rfl, ?_⟩
  decide

/-- C3 amended: the counters are uint32 wrapping modulo 2^32; send_seq
starts at 2^32−1 so the first outbound DataPacket carries sequence 0, and
GeneralDataPacket.Handle advances recv_last and both window borders using
the plain uint32 difference seq − recv_last (no 24-bit sign extension):
an accepted packet advances iff that difference is nonzero, shifting both
borders by exactly the uint32 difference. -/
theorem counters_are_uint32 :
    NewSession.seqNumber = u32Mod - 1 ∧
    (sendEncapsulatedDirect NewSession).2 = 0 ∧
    ∀ (s : Session) (seqNum : Nat) (pks : List EncapsulatedPacket),
      ¬ (seqNum < s.windowBorder0 ∨ s.windowBorder1 ≤ seqNum) →
      (GeneralDataPacketHandle s seqNum pks).1.lastSeq =
        (if 1 ≤ u32sub seqNum s.lastSeq then seqNum else s.lastSeq) ∧
      (GeneralDataPacketHandle s seqNum pks).1.windowBorder0 =
        (if 1 ≤ u32sub seqNum s.lastSeq then
          u32add s.windowBorder0 (u32sub seqNum s.lastSeq) else s.windowBorder0) ∧
      (GeneralDataPacketHandle s seqNum pks).1.windowBorder1 =
        (if 1 ≤ u32sub seqNum s.lastSeq then
          u32add s.windowBorder1 (u32sub seqNum s.lastSeq) else s.windowBorder1) := by
  refine ⟨rfl, by decide, ?_⟩
  intro s seqNum pks hwin
  unfold GeneralDataPacketHandle
  rw [if_neg hwin]
  by_cases hd : 1 ≤ u32sub seqNum s.lastSeq
  · have hfr := preEncapsulatedAll_frame pks
      { s with packetWindow := pwInsert seqNum s.packetWindow,
               lastSeq := seqNum,
               windowBorder0 := u32add s.windowBorder0 (u32sub seqNum s.lastSeq),
               windowBorder1 := u32add s.windowBorder1 (u32sub seqNum s.lastSeq) }
    simp only [if_pos hd]
    refine ⟨?_, ?_, ?_⟩ <;> simp [hd, hfr.1, hfr.2.1, hfr.2.2.1]
  · simp [hd]

/-- Witness for C3 amended at a concrete accepted packet: a fresh session
accepting sequence 0 advances lastSeq from 2^32−1 to 0 and shifts both
borders by the uint32 difference 1. -/
theorem counters_are_uint32_witness :
    (GeneralDataPacketHandle NewSession 0 []).1.lastSeq =
        (if 1 ≤ u32sub 0 NewSession.lastSeq then 0 else NewSession.lastSeq) ∧
      (GeneralDataPacketHandle NewSession 0 []).1.windowBorder0 =
        (if 1 ≤ u32sub 0 NewSession.lastSeq then
          u32add NewSession.windowBorder0 (u32sub 0 NewSession.lastSeq)
        else NewSession.windowBorder0) ∧
      (GeneralDataPacketHandle NewSession 0 []).1.windowBorder1 =
        (if 1 ≤ u32sub 0 NewSession.lastSeq then
          u32add NewSession.windowBorder1 (u32sub 0 NewSession.lastSeq)
        else NewSession.windowBorder1) :=
  counters_are_uint32.2.2 NewSession 0 [] (by decide)

/-! ## C4: out-of-order DataPackets do not re-enter their payloads -/

/-- A state in which a duplicate of recv_last is still inside the receive
window, and a reliable packet that the reorder buffer would accept. -/
def c4State : Session := { NewSession with lastSeq := 5 }

def c4Packet : EncapsulatedPacket :=
  { Reliability := 2, MessageIndex := 0, Buffer := [1] }

/-- C4 counterexample: sequence 5 is accepted (inside [0, 2048)) and its
wrap-aware difference to recv_last = 5 is 0 < 1, recv_last and the borders
stay unchanged — but the contained reliable payload is NOT re-entered into
the reliable reorder buffer: nothing is delivered and reliableWindow stays
empty, contradicting the claim. -/
theorem out_of_order_payload_dropped :
    ¬ (5 < c4State.windowBorder0 ∨ c4State.windowBorder1 ≤ 5) ∧
    u32sub 5 c4State.lastSeq = 0 ∧
    (GeneralDataPacketHandle c4State 5 [c4Packet]).2.2 = [] ∧
    (GeneralDataPacketHandle c4State 5 [c4Packet]).1.reliableWindow = [] ∧
    (GeneralDataPacketHandle c4State 5 [c4Packet]).1.lastSeq = 5 ∧
    (GeneralDataPacketHandle c4State 5 [c4Packet]).1.windowBorder0 = 0 ∧
    (GeneralDataPacketHandle c4State 5 [c4Packet]).1.windowBorder1 = 2048 := by
  decide

/-- C4 amended: an accepted DataPacket whose uint32 difference to
recv_last is 0 leaves recv_last, both window borders and the whole
reliable-reorder state unchanged and hands no payload onward; an accepted
packet with nonzero difference advances recv_last to its sequence, shifts
both borders by that difference, and only then re-enters its payloads into
the reliable reorder buffer. -/
theorem handle_window_advancement (s : Session) (seqNum : Nat)
    (pks : List EncapsulatedPacket)
    (hwin : ¬ (seqNum < s.windowBorder0 ∨ s.windowBorder1 ≤ seqNum)) :
    (u32sub seqNum s.lastSeq = 0 →
      (GeneralDataPacketHandle s seqNum pks).1 =
        { s with packetWindow := pwInsert seqNum s.packetWindow } ∧
      (GeneralDataPacketHandle s seqNum pks).2.2 = []) ∧
    (1 ≤ u32sub seqNum s.lastSeq →
      ((GeneralDataPacketHandle s seqNum pks).1,
       (GeneralDataPacketHandle s seqNum pks).2.2) =
        preEncapsulatedAll
          { s with packetWindow := pwInsert seqNum s.packetWindow,
                   lastSeq := seqNum,
                   windowBorder0 := u32add s.windowBorder0 (u32sub seqNum s.lastSeq),
                   windowBorder1 := u32add s.windowBorder1 (u32sub seqNum s.lastSeq) }
          pks) := by
  constructor
  · intro h0
    simp [GeneralDataPacketHandle, hwin, h0]
  · intro h1
    simp [GeneralDataPacketHandle, hwin, h1, Nat.not_eq_zero_of_lt h1]

/-- Witness for C4 amended: both branches at concrete inputs — the
duplicate sequence 5 (difference 0) and the fresh in-order sequence 0. -/
theorem handle_window_advancement_witness :
    ((u32sub 5 c4State.lastSeq = 0 →
      (GeneralDataPacketHandle c4State 5 [c4Packet]).1 =
        { c4State with packetWindow := pwInsert 5 c4State.packetWindow } ∧
      (GeneralDataPacketHandle c4State 5 [c4Packet]).2.2 = [])) ∧
    (1 ≤ u32sub 0 NewSession.lastSeq →
      ((GeneralDataPacketHandle NewSession 0 [c4Packet]).1,
       (GeneralDataPacketHandle NewSession 0 [c4Packet]).2.2) =
        preEncapsulatedAll
          { NewSession with
              packetWindow := pwInsert 0 NewSession.packetWindow,
              lastSeq := 0,
              windowBorder0 := u32add NewSession.windowBorder0
                (u32sub 0 NewSession.lastSeq),
              windowBorder1 := u32add NewSession.windowBorder1
                (u32sub 0 NewSession.lastSeq) }
          [c4Packet]) :=
  ⟨(handle_window_advancement c4State 5 [c4Packet] (by decide)).1,
   (handle_window_advancement NewSession 0 [c4Packet] (by decide)).2⟩

/-! ## C6: the recovery tick breaks at the first non-stale entry -/

/-- C6: session.update iterates the recovery map in Go's unspecified map
order and breaks at the first entry that is not yet 8 s old, so a stale
entry that happens to be ordered after a fresh one is neither retransmitted
nor removed.  Iteration order [(seq 1, sent at 9000 ms), (seq 2, sent at
0 ms)] at now = 10000 ms: seq 2 is more than 8000 ms old, yet nothing is
retransmitted and both entries remain. -/
theorem updateRecovery_skips_stale_entry :
    updateRecovery [(1, 9000), (2, 0)] 10000 = ([(1, 9000), (2, 0)], []) ∧
      0 + 8000 < 10000 := by
  decide

/-! ## C7: handshake state gating -/

/-- C7 counterexample: a ClientHandshake received in state Listen (0),
which is not Request2Seen (2), is not silently dropped — it marks the
session Established (Status 3) and creates the player; and a duplicate
OpenConnectionRequest1 received in state Request1Seen sends a reply. -/
theorem clientHandshake_not_gated :
    (ClientHandshakeHandle { NewSession with Status := 0 }).1.Status = 3 ∧
    (ClientHandshakeHandle { NewSession with Status := 0 }).1.playerCreated = true ∧
    (OpenConnectionRequest1Handle { NewSession with Status := 1 }).2 = 1 ∧
    (0 : Nat) ≠ 2 := by
  decide

/-- C7 amended: the actual gating of the handshake handlers.
OpenConnectionRequest2 is dropped (state unchanged, no reply) unless
Status = 1, ClientConnect unless Status = 2; OpenConnectionRequest1 is
processed whenever Status ≤ 1 (replying and setting Status 1, even when a
reply was already sent), and ClientHandshake is processed in every state,
unconditionally marking the session Established. -/
theorem handshake_state_gating (s : Session) :
    (1 < s.Status → OpenConnectionRequest1Handle s = (s, 0)) ∧
    (s.Status ≤ 1 →
      OpenConnectionRequest1Handle s = ({ s with Status := 1 }, 1)) ∧
    (∀ cid mtu, s.Status ≠ 1 → OpenConnectionRequest2Handle s cid mtu = (s, 0)) ∧
    (∀ cid mtu, s.Status = 1 → OpenConnectionRequest2Handle s cid mtu =
      ({ s with Status := 2, ID := cid, mtuSize := mtu }, 1)) ∧
    (s.Status ≠ 2 → ClientConnectHandle s = (s, 0)) ∧
    (s.Status = 2 → ClientConnectHandle s = (s, 1)) ∧
    (ClientHandshakeHandle s).1.Status = 3 ∧
    (ClientHandshakeHandle s).1.playerCreated = true ∧
    (ClientHandshakeHandle s).2 = 0 := by
  refine ⟨?_, ?_, ?_, ?_, ?_, ?_, ?_, ?_, rfl⟩
  · intro h
    simp [OpenConnectionRequest1Handle, h]
  · intro h
    simp [OpenConnectionRequest1Handle, Nat.not_lt.mpr h]
  · intro cid mtu h
    simp [OpenConnectionRequest2Handle, h]
  · intro cid mtu h
    simp [OpenConnectionRequest2Handle, h]
  · intro h
    simp [ClientConnectHandle, h]
  · intro h
    simp [ClientConnectHandle, h]
  · simp [ClientHandshakeHandle, connComplete]
  · simp [ClientHandshakeHandle, connComplete]

/-- Witness for C7 amended: the drop branches discharged at an Established
session and the accept branches at the matching handshake states. -/
theorem handshake_state_gating_witness :
    OpenConnectionRequest1Handle { NewSession with Status := 3 } =
      ({ NewSession with Status := 3 }, 0) ∧
    OpenConnectionRequest1Handle NewSession = ({ NewSession with Status := 1 }, 1) ∧
    OpenConnectionRequest2Handle { NewSession with Status := 3 } 77 1492 =
      ({ NewSession with Status := 3 }, 0) ∧
    OpenConnectionRequest2Handle { NewSession with Status := 1 } 77 1492 =
      ({ NewSession with Status := 2, ID := 77, mtuSize := 1492 }, 1) ∧
    ClientConnectHandle { NewSession with Status := 3 } =
      ({ NewSession with Status := 3 }, 0) ∧
    ClientConnectHandle { NewSession with Status := 2 } =
      ({ NewSession with Status := 2 }, 1) :=
  ⟨(handshake_state_gating _).1 (by decide),
   (handshake_state_gating _).2.1 (by decide),
   (handshake_state_gating _).2.2.1 77 1492 (by decide),
   (handshake_state_gating _).2.2.2.1 77 1492 (by decide),
   (handshake_state_gating _).2.2.2.2.1 (by decide),
   (handshake_state_gating _).2.2.2.2.2.1 (by decide)⟩

/-! ## C9: liveness -/

/-- C9: when the liveness timer fires on a session that is not Established
or has exhausted its ping retries (pingTries ≥ 3), the session closes with
reason timeout; otherwise a Ping carrying the 64-bit id packed from two
random uint32 draws is sent, pingTries is incremented and the timer
restarts at 2000 ms.  A Pong received while pingTries > 0 resets pingTries
to zero and the timer to 2000 ms. -/
theorem liveness_timeout_ping_pong (s : Session) (r1 r2 : Nat)
    (hst : s.Status ≤ 3) (h1 : r1 < u32Mod) (h2 : r2 < u32Mod) :
    (s.Status ≠ 3 ∨ 3 ≤ s.pingTries →
      timeoutFire s r1 r2 = (s, [SessionEvent.closedTimeout])) ∧
    (s.Status = 3 → s.pingTries < 3 →
      timeoutFire s r1 r2 =
        ({ s with pingTries := s.pingTries + 1, timerMs := 2000 },
         [SessionEvent.pingSent (r1 * u32Mod + r2)]) ∧
      r1 * u32Mod + r2 < 18446744073709551616) ∧
    (0 < s.pingTries → PongHandle s = { s with timerMs := 2000, pingTries := 0 }) := by
  refine ⟨?_, ?_, ?_⟩
  · intro h
    have : s.Status < 3 ∨ MaxPingTries ≤ s.pingTries := by
      rcases h with h | h
      · exact Or.inl (by omega)
      · exact Or.inr (by simpa [MaxPingTries] using h)
    simp [timeoutFire, this]
  · intro h3 htries
    have hcond : ¬ (s.Status < 3 ∨ MaxPingTries ≤ s.pingTries) := by
      simp [MaxPingTries]
      omega
    rw [timeoutFire, if_neg hcond]
    have hid : r1 % u32Mod * u32Mod + r2 % u32Mod = r1 * u32Mod + r2 := by
      rw [Nat.mod_eq_of_lt h1, Nat.mod_eq_of_lt h2]
    refine ⟨by rw [hid], ?_⟩
    simp only [u32Mod] at h1 h2 ⊢
    omega
  · intro h
    simp [PongHandle, h]

/-- Witness for C9 at concrete sessions: an Established session with one
outstanding ping, and a Listen session. -/
theorem liveness_timeout_ping_pong_witness :
    (timeoutFire NewSession 7 9 = (NewSession, [SessionEvent.closedTimeout])) ∧
    (timeoutFire { NewSession with Status := 3, pingTries := 1 } 7 9 =
      ({ NewSession with Status := 3, pingTries := 2, timerMs := 2000 },
       [SessionEvent.pingSent (7 * u32Mod + 9)]) ∧
     7 * u32Mod + 9 < 18446744073709551616) ∧
    (PongHandle { NewSession with Status := 3, pingTries := 1 } =
      { NewSession with Status := 3, timerMs := 2000, pingTries := 0 }) :=
  ⟨(liveness_timeout_ping_pong NewSession 7 9 (by decide) (by decide)
      (by decide)).1 (Or.inl (by decide)),
   (liveness_timeout_ping_pong { NewSession with Status := 3, pingTries := 1 }
      7 9 (by decide) (by decide) (by decide)).2.1 rfl (by decide),
   (liveness_timeout_ping_pong { NewSession with Status := 3, pingTries := 1 }
      7 9 (by decide) (by decide) (by decide)).2.2 (by decide)⟩

/-! ## Association-list map lemmas -/

theorem amGet_eq_none_iff {α : Type} (k : Nat) (m : List (Nat × α)) :
    amGet k m = none ↔ k ∉ amKeys m := by
  induction m with
  | nil => simp [amGet, amKeys]
  | cons p rest ih =>
    obtain ⟨k', v⟩ := p
    by_cases h : k = k'
    · simp [amGet, amKeys, h]
    · simp [amGet, amKeys, h, ih]

theorem amGet_insert_self {α : Type} (k : Nat) (v : α) (m : List (Nat × α)) :
    amGet k (amInsert k v m) = some v := by
  induction m with
  | nil => simp [amInsert, amGet]
  | cons p rest ih =>
    obtain ⟨k', v'⟩ := p
    by_cases h1 : k < k'
    · simp [amInsert, amGet, h1]
    · by_cases h2 : k = k'
      · simp [amInsert, amGet, h1, h2]
      · simp [amInsert, amGet, h1, h2, ih]

theorem amErase_not_mem {α : Type} (k : Nat) (m : List (Nat × α))
    (h : k ∉ amKeys m) : amErase k m = m := by
  induction m with
  | nil => rfl
  | cons p rest ih =>
    obtain ⟨k', v'⟩ := p
    simp only [amKeys, List.map_cons, List.mem_cons] at h
    push_neg at h
    simp only [amErase, if_neg h.1]
    rw [ih h.2]

theorem amErase_insert {α : Type} (k : Nat) (v : α) (m : List (Nat × α))
    (h : k ∉ amKeys m) : amErase k (amInsert k v m) = m := by
  induction m with
  | nil => simp [amInsert, amErase]
  | cons p rest ih =>
    obtain ⟨k', v'⟩ := p
    simp only [amKeys, List.map_cons, List.mem_cons] at h
    push_neg at h
    by_cases h1 : k < k'
    · simp [amInsert, amErase, h1]
    · simp only [amInsert, if_neg h1, if_neg h.1]
      simp only [amErase, if_neg h.1]
      rw [ih h.2]

theorem amInsert_insert {α : Type} (k : Nat) (v1 v2 : α) (m : List (Nat × α)) :
    amInsert k v2 (amInsert k v1 m) = amInsert k v2 m := by
  induction m with
  | nil => simp [amInsert]
  | cons p rest ih =>
    obtain ⟨k', v'⟩ := p
    by_cases h1 : k < k'
    · simp [amInsert, h1, Nat.lt_irrefl]
    · by_cases h2 : k = k'
      · simp [amInsert, h1, h2, Nat.lt_irrefl]
      · simp [amInsert, h1, h2, ih]

theorem amKeys_insert_perm {α : Type} (k : Nat) (v : α) (m : List (Nat × α))
    (h : k ∉ amKeys m) : (amKeys (amInsert k v m)).Perm (k :: amKeys m) := by
  induction m with
  | nil => simp [amInsert, amKeys]
  | cons p rest ih =>
    obtain ⟨k', v'⟩ := p
    simp only [amKeys, List.map_cons, List.mem_cons] at h
    push_neg at h
    by_cases h1 : k < k'
    · simp [amInsert, amKeys, h1]
    · simp only [amInsert, if_neg h1, if_neg h.1]
      simp only [amKeys, List.map_cons]
      exact ((ih h.2).cons k').trans (List.Perm.swap k k' _)

theorem amInsert_length {α : Type} (k : Nat) (v : α) (m : List (Nat × α))
    (h : k ∉ amKeys m) : (amInsert k v m).length = m.length + 1 := by
  have := (amKeys_insert_perm k v m h).length_eq
  simpa [amKeys] using this

theorem amInsert_values {α : Type} (f : Nat → α) (k : Nat) (v : α)
    (m : List (Nat × α)) (hm : ∀ p ∈ m, p.2 = f p.1) (hv : v = f k) :
    ∀ p ∈ amInsert k v m, p.2 = f p.1 := by
  induction m with
  | nil => simpa [amInsert] using hv
  | cons q rest ih =>
    obtain ⟨k', v'⟩ := q
    have hq := hm (k', v') (by simp)
    have hrest : ∀ p ∈ rest, p.2 = f p.1 := fun p hp => hm p (by simp [hp])
    by_cases h1 : k < k'
    · simp only [amInsert, if_pos h1]
      intro p hp
      simp only [List.mem_cons] at hp
      rcases hp with hp | hp | hp
      · simpa [hp] using hv
      · simpa [hp] using hq
      · exact hrest p hp
    · by_cases h2 : k = k'
      · simp only [amInsert, if_neg h1, if_pos h2]
        intro p hp
        simp only [List.mem_cons] at hp
        rcases hp with hp | hp
        · simpa [hp] using hv
        · exact hrest p hp
      · simp only [amInsert, if_neg h1, if_neg h2]
        intro p hp
        simp only [List.mem_cons] at hp
        rcases hp with hp | hp
        · simpa [hp] using hq
        · exact ih hrest p hp

theorem amGet_of_values {α : Type} (f : Nat → α) (k : Nat)
    (m : List (Nat × α)) (hm : ∀ p ∈ m, p.2 = f p.1) (hk : k ∈ amKeys m) :
    amGet k m = some (f k) := by
  induction m with
  | nil => simp [amKeys] at hk
  | cons p rest ih =>
    obtain ⟨k', v'⟩ := p
    by_cases h : k = k'
    · have := hm (k', v') (by simp)
      simp only [amGet, if_pos h]
      simp only at this
      rw [this, h]
    · simp only [amKeys, List.map_cons, List.mem_cons] at hk
      rcases hk with hk | hk
      · exact absurd hk h
      · simp only [amGet, if_neg h]
        exact ih (fun p hp => hm p (by simp [hp])) hk

theorem flatMap_congr_mem {α : Type} (l : List Nat) (f g : Nat → List α)
    (h : ∀ x ∈ l, f x = g x) : l.flatMap f = l.flatMap g := by
  induction l with
  | nil => rfl
  | cons x l ih =>
    simp only [List.flatMap_cons]
    rw [h x (by simp), ih fun y hy => h y (by simp [hy])]

/-! ## C2: split reassembly -/

/-- Feeding joinSplits a run of fragments: with tab the sid entry built so
far (absent when empty) and fs the fragments covering the missing indices,
exactly one reassembled packet is delivered (on the final fragment) and
the sid entry is gone afterwards, the rest of the table untouched. -/
theorem joinSplitsAll_run (n sid : Nat) (pl : Nat → List Nat)
    (T0 : List (Nat × List (Nat × List Nat))) (hsid : sid ∉ amKeys T0) :
    ∀ (fs : List EncapsulatedPacket) (tab : List (Nat × List Nat)) (s : Session),
    s.Status = 3 →
    s.splitTable = (if tab = [] then T0 else amInsert sid tab T0) →
    (∀ p ∈ tab, p.2 = pl p.1) →
    tab.length < n →
    tab.length + fs.length = n →
    (∀ f ∈ fs, f.SplitID = sid ∧ f.SplitCount = n ∧ f.HasSplit = true ∧
      f.Buffer = pl f.SplitIndex) →
    (amKeys tab ++ fs.map EncapsulatedPacket.SplitIndex).Perm (List.range n) →
    (joinSplitsAll s fs).2 = [{ Buffer := (List.range n).flatMap pl }] ∧
    (joinSplitsAll s fs).1.splitTable = T0 := by
  intro fs
  induction fs with
  | nil =>
    intro tab s _ _ _ hlt hsum _ _
    simp only [List.length_nil, Nat.add_zero] at hsum
    omega
  | cons f fs' ih =>
    intro tab s hst htable hvals hlt hsum hfs hperm
    obtain ⟨hfid, hfcnt, _, hfbuf⟩ := hfs f (by simp)
    have hnodup : (amKeys tab ++ (f :: fs').map EncapsulatedPacket.SplitIndex).Nodup :=
      hperm.nodup_iff.mpr (List.nodup_range n)
    simp only [List.map_cons] at hnodup hperm
    have hfresh : f.SplitIndex ∉ amKeys tab := by
      intro hmem
      exact List.disjoint_of_nodup_append hnodup hmem (by simp)
    have hget0 : (amGet sid s.splitTable).getD [] = tab := by
      by_cases htab : tab = []
      · subst htab
        rw [htable, if_pos rfl, (amGet_eq_none_iff _ _).mpr hsid]
        rfl
      · rw [htable, if_neg htab, amGet_insert_self]
        rfl
    have hgetidx : (amGet f.SplitIndex tab).isSome = false := by
      rw [(amGet_eq_none_iff _ _).mpr hfresh]; rfl
    have hlen1 : (amInsert f.SplitIndex f.Buffer tab).length = tab.length + 1 :=
      amInsert_length _ _ _ hfresh
    have hne1 : amInsert f.SplitIndex f.Buffer tab ≠ [] := by
      intro h
      rw [h] at hlen1
      simp at hlen1
    have hvals1 : ∀ p ∈ amInsert f.SplitIndex f.Buffer tab, p.2 = pl p.1 :=
      amInsert_values pl _ _ _ hvals hfbuf
    have hnot3 : ¬ s.Status < 3 := by omega
    have herase : amErase sid s.splitTable = T0 := by
      by_cases htab : tab = []
      · rw [htable, if_pos htab, amErase_not_mem _ _ hsid]
      · rw [htable, if_neg htab, amErase_insert _ _ _ hsid]
    have hins2 : amInsert sid (amInsert f.SplitIndex f.Buffer tab) s.splitTable =
        amInsert sid (amInsert f.SplitIndex f.Buffer tab) T0 := by
      by_cases htab : tab = []
      · rw [htable, if_pos htab]
      · rw [htable, if_neg htab, amInsert_insert]
    by_cases hdone : (amInsert f.SplitIndex f.Buffer tab).length = n
    · -- final fragment: fs' must be empty
      have hfs0 : fs' = [] := by
        rw [hlen1] at hdone
        simp only [List.length_cons] at hsum
        have : fs'.length = 0 := by omega
        exact List.length_eq_zero.mp this
      subst hfs0
      have hkeys1 : ∀ j ∈ List.range n,
          j ∈ amKeys (amInsert f.SplitIndex f.Buffer tab) := by
        intro j hj
        rw [(amKeys_insert_perm f.SplitIndex f.Buffer tab hfresh).mem_iff]
        have hperm2 : (amKeys tab ++ [f.SplitIndex]).Perm (List.range n) := by
          simpa using hperm
        have := hperm2.mem_iff.mpr hj
        simp only [List.mem_append, List.mem_singleton] at this
        rcases this with h | h
        · simp [h]
        · simp [h]
      have hbuf : ((List.range n).flatMap fun i =>
          (amGet i (amInsert f.SplitIndex f.Buffer tab)).getD []) =
          (List.range n).flatMap pl := by
        refine flatMap_congr_mem _ _ _ fun j hj => ?_
        rw [amGet_of_values pl j _ hvals1 (hkeys1 j hj)]
        rfl
      simp only [joinSplitsAll, joinSplits, hnot3, if_false, hfid, hget0,
        hgetidx, Bool.false_eq_true, hfcnt, if_pos hdone]
      constructor
      · simp only [List.append_nil]
        rw [hbuf]
      · exact herase
    · -- not final: the fragment is buffered, recurse
      have hlt1 : tab.length + 1 < n := by
        rw [hlen1] at hdone
        simp only [List.length_cons] at hsum
        omega
      have hperm1 : (amKeys (amInsert f.SplitIndex f.Buffer tab) ++
          fs'.map EncapsulatedPacket.SplitIndex).Perm (List.range n) := by
        refine List.Perm.trans ?_ (List.Perm.trans List.perm_middle.symm hperm)
        exact (amKeys_insert_perm f.SplitIndex f.Buffer tab hfresh).append_right _
      have hres := ih (amInsert f.SplitIndex f.Buffer tab)
        { s with splitTable :=
            amInsert sid (amInsert f.SplitIndex f.Buffer tab) T0 }
        hst (by simp [if_neg hne1]) hvals1 (by omega)
        (by simp only [List.length_cons] at hsum; omega)
        (fun g hg => hfs g (by simp [hg])) hperm1
      simp only [joinSplitsAll, joinSplits, hnot3, if_false, hfid, hget0,
        hgetidx, Bool.false_eq_true, hfcnt, if_neg hdone, hins2]
      simpa using hres

/-- C2 as amended: on an Established session with no pending entry for the
split id, feeding the n fragments (distinct split indices 0..n−1, shared
split id and split count, payload pl i at index i) in any order delivers
exactly one reassembled packet, whose payload is the concatenation of the
fragment payloads in split-index order; the packet is a fresh
EncapsulatedPacket, so its split flag is cleared and its reliability is
the zero value 0 (NOT the fragments' original reliability); the split-id
entry is absent from the table afterwards. -/
theorem joinSplits_reassembly (n sid : Nat) (pl : Nat → List Nat)
    (s0 : Session) (hst : s0.Status = 3)
    (hnone : amGet sid s0.splitTable = none) (hn : 0 < n)
    (fs : List EncapsulatedPacket)
    (hperm : (fs.map EncapsulatedPacket.SplitIndex).Perm (List.range n))
    (hfs : ∀ f ∈ fs, f.SplitID = sid ∧ f.SplitCount = n ∧ f.HasSplit = true ∧
      f.Buffer = pl f.SplitIndex) :
    (joinSplitsAll s0 fs).2 = [{ Buffer := (List.range n).flatMap pl }] ∧
    amGet sid (joinSplitsAll s0 fs).1.splitTable = none := by
  have hsid : sid ∉ amKeys s0.splitTable := (amGet_eq_none_iff _ _).mp hnone
  have hlenfs : fs.length = n := by
    have := hperm.length_eq
    simpa using this
  have hres := joinSplitsAll_run n sid pl s0.splitTable hsid fs [] s0 hst
    (by simp) (by simp) hn (by simpa using hlenfs) hfs (by simpa using hperm)
  exact ⟨hres.1, hres.2 ▸ hnone⟩

/-- The two fragments of a reliability-3 split, used for the C2
counterexample and witness. -/
def c2Frag0 : EncapsulatedPacket :=
  { Reliability := 3, HasSplit := true, SplitID := 7, SplitCount := 2,
    SplitIndex := 0, Buffer := [1] }

def c2Frag1 : EncapsulatedPacket :=
  { Reliability := 3, HasSplit := true, SplitID := 7, SplitCount := 2,
    SplitIndex := 1, Buffer := [2] }

/-- C2 counterexample: reassembling two reliability-3 fragments delivers a
packet whose reliability is 0, not the fragments' original 3 — joinSplits
builds the reassembled packet with new(EncapsulatedPacket) and never
copies the reliability, so "original reliability preserved" is false. -/
theorem joinSplits_reliability_reset :
    ((joinSplitsAll { NewSession with Status := 3 } [c2Frag0, c2Frag1]).2.map
      EncapsulatedPacket.Reliability) = [0] ∧
    c2Frag0.Reliability = 3 ∧ c2Frag1.Reliability = 3 ∧ (0 : Nat) ≠ 3 := by
  decide

/-- Witness for C2 amended, at the two concrete fragments delivered out of
order: one delivery carrying the concatenated payload [1, 2]. -/
theorem joinSplits_reassembly_witness :
    (joinSplitsAll { NewSession with Status := 3 } [c2Frag1, c2Frag0]).2 =
      [{ Buffer := (List.range 2).flatMap fun i => [i + 1] }] ∧
    amGet 7 (joinSplitsAll { NewSession with Status := 3 }
      [c2Frag1, c2Frag0]).1.splitTable = none :=
  joinSplits_reassembly 2 7 (fun i => [i + 1]) { NewSession with Status := 3 }
    rfl rfl (by decide) _ (List.Perm.swap 0 1 []) (by decide)

/-! ## The ACK/NACK codec (part_009) -/

/-- sort.Sort on an ackTable: ascending order. -/
def sortAck (t : List Nat) : List Nat := List.insertionSort (· ≤ ·) t

/-- One ACK record as EncodeAck emits it: flag byte 1 plus one triad for a
single sequence, flag byte 0 plus two triads for an inclusive range. -/
def recordBytes (start last : Nat) : List Nat :=
  if start = last then WriteByte 1 ++ WriteLTriad start
  else WriteByte 0 ++ WriteLTriad start ++ WriteLTriad last

/-- The sweep loop of part_009 EncodeAck over the sorted tail, carrying the
current run [start, last]: a uint32 difference of 1 extends the run, a
larger difference emits the pending record, a difference of 0 (duplicate)
is skipped; the final run is emitted at the end.  Returns the record bytes
and the record count. -/
def encodeSweep : List Nat → Nat → Nat → List Nat × Nat
  | [], start, last => (recordBytes start last, 1)
  | current :: rest, start, last =>
    if u32sub current last = 1 then encodeSweep rest start current
    else if 1 < u32sub current last then
      let r := encodeSweep rest current current
      (recordBytes start last ++ r.1, r.2 + 1)
    else encodeSweep rest start last

/-- part_009 EncodeAck: sort, sweep, and prepend the u16 record count. -/
def EncodeAck (t : List Nat) : List Nat :=
  match sortAck t with
  | [] => WriteShort 0
  | h :: rest =>
    let r := encodeSweep rest h h
    WriteShort r.2 ++ r.1

/-- The sequences start..last decoded from one range record. -/
def rangeVals (start last : Nat) : List Nat :=
  (List.range (last + 1 - start)).map (start + ·)

/-- The record loop of part_009 DecodeAck: up to the announced number of
records, while bytes remain and fewer than 4096 sequences were decoded; a
range record whose uint32 span exceeds 512 is clamped to start + 512. -/
def decodeLoop : Nat → List Nat → Nat → Option (List Nat)
  | 0, _, _ => some []
  | n + 1, bs, count =>
    if bs.length = 0 then some []
    else if 4096 ≤ count then some []
    else
      match ReadByteO bs with
      | none => none
      | some (f, bs1) =>
        if f = 0 then
          match ReadLTriadO bs1 with
          | none => none
          | some (start, bs2) =>
            match ReadLTriadO bs2 with
            | none => none
            | some (last0, bs3) =>
              let last := if 512 < u32sub last0 start then u32add start 512
                          else last0
              match decodeLoop n bs3 (count + (last + 1 - start)) with
              | none => none
              | some rest => some (rangeVals start last ++ rest)
        else
          match ReadLTriadO bs1 with
          | none => none
          | some (p, bs2) =>
            match decodeLoop n bs2 (count + 1) with
            | none => none
            | some rest => some (p :: rest)

/-- part_009 DecodeAck: u16 record count, then the record loop. -/
def DecodeAck (b : List Nat) : Option (List Nat) :=
  match ReadShortO b with
  | none => none
  | some (records, b1) => decodeLoop records b1 0

/-- The maximal runs of consecutive values of a sorted list, as
(start, last) pairs, mirroring the sweep of EncodeAck. -/
def runsAux : List Nat → Nat → Nat → List (Nat × Nat)
  | [], s, l => [(s, l)]
  | c :: rest, s, l =>
    if c = l + 1 then runsAux rest s c else (s, l) :: runsAux rest c c

def runs : List Nat → List (Nat × Nat)
  | [] => []
  | h :: rest => runsAux rest h h

/-- The byte serialization of a record list. -/
def serializeRuns (R : List (Nat × Nat)) : List Nat :=
  R.flatMap fun p => recordBytes p.1 p.2

/-- The total number of sequences covered by a record list. -/
def runTotal (R : List (Nat × Nat)) : Nat :=
  (R.map fun p => p.2 + 1 - p.1).sum

theorem u32sub_of_le (a b : Nat) (hba : b ≤ a) (ha : a < u32Mod) :
    u32sub a b = a - b := by
  simp only [u32sub, u32Mod] at *
  omega

theorem rangeVals_self (s : Nat) : rangeVals s s = [s] := by
  simp [rangeVals, List.range_succ]

theorem rangeVals_succ (s l : Nat) (h : s ≤ l) :
    rangeVals s (l + 1) = rangeVals s l ++ [l + 1] := by
  simp only [rangeVals]
  have h1 : l + 1 + 1 - s = (l + 1 - s) + 1 := by omega
  rw [h1, List.range_succ, List.map_append]
  simp only [List.map_cons, List.map_nil]
  congr 2
  omega

theorem rangeVals_length (s l : Nat) : (rangeVals s l).length = l + 1 - s := by
  simp [rangeVals]

theorem encodeSweep_eq (rest : List Nat) :
    ∀ (start last : Nat), last < u24Mod → (∀ x ∈ rest, x < u24Mod) →
    List.Pairwise (· < ·) (last :: rest) →
    encodeSweep rest start last =
      (serializeRuns (runsAux rest start last), (runsAux rest start last).length) := by
  induction rest with
  | nil =>
    intro start last _ _ _
    simp [encodeSweep, runsAux, serializeRuns]
  | cons c rest ih =>
    intro start last hlast h24 hpw
    have hlc : last < c := (List.pairwise_cons.mp hpw).1 c (by simp)
    have hc24 : c < u24Mod := h24 c (by simp)
    have hc32 : c < u32Mod := by
      simp only [u24Mod] at hc24
      simp only [u32Mod]
      omega
    have hsub : u32sub c last = c - last := u32sub_of_le _ _ (le_of_lt hlc) hc32
    have hpw' : List.Pairwise (· < ·) (c :: rest) := (List.pairwise_cons.mp hpw).2
    have h24' : ∀ x ∈ rest, x < u24Mod := fun x hx => h24 x (by simp [hx])
    by_cases hc1 : c = last + 1
    · have hone : u32sub c last = 1 := by rw [hsub]; omega
      simp only [encodeSweep, hone, if_pos rfl, runsAux, if_pos hc1]
      exact ih start c hc24 h24' hpw'
    · have hne : u32sub c last ≠ 1 := by rw [hsub]; omega
      have hgt : 1 < u32sub c last := by rw [hsub]; omega
      simp only [encodeSweep, if_neg hne, if_pos hgt, runsAux, if_neg hc1]
      rw [ih c c hc24 h24' hpw']
      simp [serializeRuns]

theorem runsAux_mem_bounds (rest : List Nat) :
    ∀ (start last : Nat), start ≤ last → last < u24Mod →
    (∀ x ∈ rest, x < u24Mod) → List.Pairwise (· < ·) (last :: rest) →
    ∀ p ∈ runsAux rest start last, p.1 ≤ p.2 ∧ p.2 < u24Mod := by
  induction rest with
  | nil =>
    intro start last hsl hl _ _ p hp
    simp only [runsAux, List.mem_singleton] at hp
    subst hp
    exact ⟨hsl, hl⟩
  | cons c rest ih =>
    intro start last hsl hl h24 hpw p hp
    have hlc : last < c := (List.pairwise_cons.mp hpw).1 c (by simp)
    have hc24 : c < u24Mod := h24 c (by simp)
    have hpw' : List.Pairwise (· < ·) (c :: rest) := (List.pairwise_cons.mp hpw).2
    have h24' : ∀ x ∈ rest, x < u24Mod := fun x hx => h24 x (by simp [hx])
    by_cases hc1 : c = last + 1
    · rw [runsAux, if_pos hc1] at hp
      exact ih start c (by omega) hc24 h24' hpw' p hp
    · rw [runsAux, if_neg hc1] at hp
      simp only [List.mem_cons] at hp
      rcases hp with hp | hp
      · subst hp
        exact ⟨hsl, hl⟩
      · exact ih c c le_rfl hc24 h24' hpw' p hp

theorem runsAux_expand (rest : List Nat) :
    ∀ (start last : Nat), start ≤ last →
    List.Pairwise (· < ·) (last :: rest) →
    ((runsAux rest start last).flatMap fun p => rangeVals p.1 p.2) =
      rangeVals start last ++ rest := by
  induction rest with
  | nil =>
    intro start last _ _
    simp [runsAux]
  | cons c rest ih =>
    intro start last hsl hpw
    have hlc : last < c := (List.pairwise_cons.mp hpw).1 c (by simp)
    have hpw' : List.Pairwise (· < ·) (c :: rest) := (List.pairwise_cons.mp hpw).2
    by_cases hc1 : c = last + 1
    · rw [runsAux, if_pos hc1, ih start c (by omega) hpw', hc1,
        rangeVals_succ start last hsl]
      simp
    · rw [runsAux, if_neg hc1]
      simp only [List.flatMap_cons]
      rw [ih c c le_rfl hpw', rangeVals_self]
      rfl

theorem runsAux_length_le (rest : List Nat) :
    ∀ start last, (runsAux rest start last).length ≤ rest.length + 1 := by
  induction rest with
  | nil => intro start last; simp [runsAux]
  | cons c rest ih =>
    intro start last
    by_cases hc1 : c = last + 1
    · rw [runsAux, if_pos hc1]
      have := ih start c
      simp only [List.length_cons]
      omega
    · rw [runsAux, if_neg hc1]
      have := ih c c
      simp only [List.length_cons]
      omega

theorem recordBytes_length_le (s l : Nat) : (recordBytes s l).length ≤ 7 := by
  unfold recordBytes
  split <;> simp [WriteByte, WriteLTriad]

theorem serializeRuns_length_le (R : List (Nat × Nat)) :
    (serializeRuns R).length ≤ 7 * R.length := by
  induction R with
  | nil => simp [serializeRuns]
  | cons p R ih =>
    simp only [serializeRuns, List.flatMap_cons, List.length_append,
      List.length_cons] at *
    have := recordBytes_length_le p.1 p.2
    omega

theorem runTotal_eq_length (R : List (Nat × Nat)) :
    runTotal R = (R.flatMap fun p => rangeVals p.1 p.2).length := by
  induction R with
  | nil => rfl
  | cons p R ih =>
    simp only [runTotal, List.map_cons, List.sum_cons, List.flatMap_cons,
      List.length_append, rangeVals_length] at *
    omega

theorem decodeLoop_step_single (n s count : Nat) (rest : List Nat)
    (hs : s < 16777216) (hcount : ¬ 4096 ≤ count) :
    decodeLoop (n + 1) (1 :: (WriteLTriad s ++ rest)) count =
      match decodeLoop n rest (count + 1) with
      | none => none
      | some l => some (s :: l) := by
  rw [decodeLoop]
  simp only [List.length_cons, Nat.succ_ne_zero, if_false, if_neg hcount,
    ReadByteO, Nat.one_ne_zero, ite_false,
    readLTriadO_writeLTriad, Nat.mod_eq_of_lt hs]

theorem decodeLoop_step_range (n s t count : Nat) (rest : List Nat)
    (hs : s < 16777216) (ht : t < 16777216) (hslt : s < t)
    (hspan : t - s ≤ 512) (hcount : ¬ 4096 ≤ count) :
    decodeLoop (n + 1) (0 :: (WriteLTriad s ++ (WriteLTriad t ++ rest))) count =
      match decodeLoop n rest (count + (t + 1 - s)) with
      | none => none
      | some l => some (rangeVals s t ++ l) := by
  have ht32 : t < u32Mod := by
    simp only [u32Mod]
    omega
  have hnoclamp : ¬ 512 < u32sub t s := by
    rw [u32sub_of_le t s (le_of_lt hslt) ht32]
    omega
  rw [decodeLoop]
  simp only [List.length_cons, Nat.succ_ne_zero, if_false, if_neg hcount,
    ReadByteO, ite_true, readLTriadO_writeLTriad, Nat.mod_eq_of_lt hs,
    Nat.mod_eq_of_lt ht, if_neg hnoclamp]

theorem decodeLoop_serialize (R : List (Nat × Nat)) :
    ∀ (count : Nat),
    (∀ p ∈ R, p.1 ≤ p.2 ∧ p.2 < u24Mod ∧ p.2 - p.1 ≤ 512) →
    count + runTotal R ≤ 4096 →
    decodeLoop R.length (serializeRuns R) count =
      some (R.flatMap fun p => rangeVals p.1 p.2) := by
  induction R with
  | nil =>
    intro count _ _
    simp [decodeLoop, serializeRuns]
  | cons p R ih =>
    obtain ⟨s, t⟩ := p
    intro count hb hcnt
    obtain ⟨hst, ht24, hspan⟩ := hb (s, t) (by simp)
    have ht24' : t < 16777216 := by simpa [u24Mod] using ht24
    have hs24' : s < 16777216 := by omega
    have hcount : ¬ 4096 ≤ count := by
      have h1 : 1 ≤ runTotal ((s, t) :: R) := by
        simp only [runTotal, List.map_cons, List.sum_cons]
        omega
      omega
    have hb' : ∀ p ∈ R, p.1 ≤ p.2 ∧ p.2 < u24Mod ∧ p.2 - p.1 ≤ 512 :=
      fun p hp => hb p (by simp [hp])
    have htotc : count + ((t + 1 - s) + runTotal R) ≤ 4096 := by
      have : runTotal ((s, t) :: R) = (t + 1 - s) + runTotal R := by
        simp [runTotal]
      omega
    simp only [List.length_cons, List.flatMap_cons]
    by_cases hsingle : s = t
    · subst hsingle
      have hser : serializeRuns ((s, s) :: R) =
          1 :: (WriteLTriad s ++ serializeRuns R) := by
        simp [serializeRuns, recordBytes, WriteByte]
      rw [hser, decodeLoop_step_single _ _ _ _ hs24' hcount,
        ih (count + 1) hb' (by omega)]
      simp [rangeVals_self]
    · have hslt : s < t := lt_of_le_of_ne hst hsingle
      have hser : serializeRuns ((s, t) :: R) =
          0 :: (WriteLTriad s ++ (WriteLTriad t ++ serializeRuns R)) := by
        simp [serializeRuns, recordBytes, WriteByte, hsingle]
      rw [hser, decodeLoop_step_range _ _ _ _ _ hs24' ht24' hslt hspan hcount,
        ih (count + (t + 1 - s)) hb' (by omega)]

theorem sortAck_sorted (l : List Nat) (h : List.Pairwise (· < ·) l) :
    sortAck l = l :=
  List.Sorted.insertionSort_eq (List.Pairwise.imp (fun hx => le_of_lt hx) h)

/-- C5 as amended: for a finite set S of 24-bit sequence numbers (given as
its strictly sorted list) with at most 4096 elements in which every maximal
run of consecutive values spans at most 512 (so at most 513 values),
DecodeAck (EncodeAck S) returns exactly S sorted ascending, and the
encoded payload occupies at most 2 + 7·r bytes where r is the number of
maximal runs, with r at most the size of S. -/
theorem ackCodec_roundtrip (l : List Nat)
    (hsorted : List.Pairwise (· < ·) l)
    (h24 : ∀ x ∈ l, x < u24Mod)
    (hlen : l.length ≤ 4096)
    (hrun : ∀ p ∈ runs l, p.2 - p.1 ≤ 512) :
    DecodeAck (EncodeAck l) = some l ∧
    (EncodeAck l).length ≤ 2 + 7 * (runs l).length ∧
    (runs l).length ≤ l.length := by
  cases l with
  | nil => refine ⟨by decide, by decide, by decide⟩
  | cons h rest =>
    have hsort : sortAck (h :: rest) = h :: rest := sortAck_sorted _ hsorted
    have hh24 : h < u24Mod := h24 h (by simp)
    have h24' : ∀ x ∈ rest, x < u24Mod := fun x hx => h24 x (by simp [hx])
    have hsw := encodeSweep_eq rest h h hh24 h24' hsorted
    have hruns : runs (h :: rest) = runsAux rest h h := rfl
    have hexp : ((runsAux rest h h).flatMap fun p => rangeVals p.1 p.2) =
        h :: rest := by
      rw [runsAux_expand rest h h le_rfl hsorted, rangeVals_self]
      rfl
    have htot : runTotal (runsAux rest h h) = rest.length + 1 := by
      rw [runTotal_eq_length, hexp]
      rfl
    have hRle : (runsAux rest h h).length ≤ rest.length + 1 :=
      runsAux_length_le rest h h
    have hlen' : rest.length + 1 ≤ 4096 := by simpa using hlen
    have hRlt : (runsAux rest h h).length < 65536 := by omega
    have hbounds : ∀ p ∈ runsAux rest h h,
        p.1 ≤ p.2 ∧ p.2 < u24Mod ∧ p.2 - p.1 ≤ 512 := by
      intro p hp
      have h1 := runsAux_mem_bounds rest h h le_rfl hh24 h24' hsorted p hp
      exact ⟨h1.1, h1.2, hrun p (by rw [hruns]; exact hp)⟩
    have henc : EncodeAck (h :: rest) =
        WriteShort (runsAux rest h h).length ++ serializeRuns (runsAux rest h h) := by
      simp only [EncodeAck, hsort, hsw]
    refine ⟨?_, ?_, ?_⟩
    · rw [henc]
      simp only [DecodeAck, readShortO_writeShort, Nat.mod_eq_of_lt hRlt]
      rw [decodeLoop_serialize _ 0 hbounds (by omega), hexp]
    · rw [henc, hruns]
      have := serializeRuns_length_le (runsAux rest h h)
      simp only [List.length_append, WriteShort, List.length_cons,
        List.length_nil]
      omega
    · rw [hruns]
      simpa using hRle

/-- C5 counterexample: the set {0, ..., 513} (514 elements, well under the
4096 cap) does not round-trip — its single run spans 513 > 512, so
DecodeAck clamps the range to [0, 512] and the value 513 is lost. -/
theorem ackCodec_clamp_breaks_roundtrip :
    DecodeAck (EncodeAck (List.range 514)) = some (List.range 513) ∧
    some (List.range 513) ≠ some (List.range 514) ∧
    (List.range 514).length ≤ 4096 := by
  refine ⟨by decide, ?_, by decide⟩
  intro h
  have h2 := congrArg List.length (Option.some.inj h)
  simp at h2

/-- Witness for C5 amended at the concrete set {1, 2, 3, 10}: two runs,
exact round trip, 16 = 2 + 7·2 bytes. -/
theorem ackCodec_roundtrip_witness :
    DecodeAck (EncodeAck [1, 2, 3, 10]) = some [1, 2, 3, 10] ∧
    (EncodeAck [1, 2, 3, 10]).length ≤ 2 + 7 * (runs [1, 2, 3, 10]).length ∧
    (runs [1, 2, 3, 10]).length ≤ ([1, 2, 3, 10] : List Nat).length :=
  ackCodec_roundtrip [1, 2, 3, 10] (by decide) (by decide) (by decide)
    (by decide)

/-! ## C1: the reliable reorder buffer -/

theorem u32add_small (a b : Nat) (h : a + b < u32Mod) : u32add a b = a + b := by
  simp only [u32add, u32Mod] at *
  omega

/-- The uint32 difference m − lastMsgIndex where lastMsgIndex holds d−1
(wrapping to 2^32−1 for d = 0) is m − d + 1. -/
theorem u32sub_pred (d m : Nat) (hd : d ≤ m) (hm : m + 1 < u32Mod)
    (hdM : d < u32Mod) :
    u32sub m ((d + (u32Mod - 1)) % u32Mod) = m - d + 1 := by
  simp only [u32sub, u32Mod] at *
  omega

/-- Incrementing a lastMsgIndex that holds d−1 (wrapped) yields d. -/
theorem u32add_pred (d : Nat) (hdM : d < u32Mod) :
    u32add ((d + (u32Mod - 1)) % u32Mod) 1 = d := by
  simp only [u32add, u32Mod] at *
  omega

theorem u32sub_eq_one_iff (k l : Nat) (hk : k < u32Mod) (hl : l + 1 < u32Mod) :
    u32sub k l = 1 ↔ k = l + 1 := by
  simp only [u32sub, u32Mod] at *
  omega

/-- The length of the initial run of consecutive keys l+1, l+2, ... at the
front of a key list. -/
def runLen (l : Nat) : List Nat → Nat
  | [] => 0
  | k :: ks => if k = l + 1 then runLen (l + 1) ks + 1 else 0

theorem runLen_le (l : Nat) (ks : List Nat) : runLen l ks ≤ ks.length := by
  induction ks generalizing l with
  | nil => simp [runLen]
  | cons k ks ih =>
    by_cases h : k = l + 1
    · simp only [runLen, if_pos h, List.length_cons]
      have := ih (l + 1)
      omega
    · simp [runLen, if_neg h]

theorem runLen_take (l : Nat) (ks : List Nat) :
    ks.take (runLen l ks) = List.range' (l + 1) (runLen l ks) := by
  induction ks generalizing l with
  | nil => simp [runLen]
  | cons k ks ih =>
    by_cases h : k = l + 1
    · simp only [runLen, if_pos h, List.take_succ_cons, List.range'_succ]
      rw [ih (l + 1), h]
    · simp [runLen, if_neg h]

theorem runLen_mem (l : Nat) (ks : List Nat) :
    ∀ i < runLen l ks, (l + 1 + i) ∈ ks := by
  induction ks generalizing l with
  | nil => simp [runLen]
  | cons k ks ih =>
    intro i hi
    by_cases h : k = l + 1
    · rw [runLen, if_pos h] at hi
      cases i with
      | zero => simp [h]
      | succ i =>
        have hmem := ih (l + 1) i (by omega)
        have harith : l + 1 + (i + 1) = l + 1 + 1 + i := by omega
        rw [harith]
        exact List.mem_cons_of_mem _ hmem
    · rw [runLen, if_neg h] at hi
      omega

theorem runLen_next_not_mem (l : Nat) (ks : List Nat)
    (hpw : List.Pairwise (· < ·) ks) (hgt : ∀ k ∈ ks, l < k) :
    (l + 1 + runLen l ks) ∉ ks := by
  induction ks generalizing l with
  | nil => simp
  | cons k ks ih =>
    have hk := hgt k (by simp)
    have hpw' := (List.pairwise_cons.mp hpw).2
    have hhead := (List.pairwise_cons.mp hpw).1
    by_cases h : k = l + 1
    · rw [runLen, if_pos h]
      intro hmem
      rcases List.mem_cons.mp hmem with heq | hmem
      · omega
      · have := ih (l + 1) hpw' (fun x hx => by have := hhead x hx; omega)
        have harith : l + 1 + (runLen (l + 1) ks + 1) =
            (l + 1) + 1 + runLen (l + 1) ks := by omega
        rw [harith] at hmem
        exact this hmem
    · rw [runLen, if_neg h]
      intro hmem
      rcases List.mem_cons.mp hmem with heq | hmem
      · omega
      · have := hhead _ hmem
        omega

theorem nodup_lt_length_le (P : List Nat) (K : Nat) (hnd : P.Nodup)
    (hlt : ∀ x ∈ P, x < K) : P.length ≤ K := by
  have hsub : P.toFinset ⊆ Finset.range K := by
    intro x hx
    exact Finset.mem_range.mpr (hlt x (List.mem_toFinset.mp hx))
  have := Finset.card_le_card hsub
  rw [List.toFinset_card_of_nodup hnd, Finset.card_range] at this
  exact this

/-- Membership in the keys of an insertion. -/
theorem amKeys_insert_mem {α : Type} (k : Nat) (v : α) (m : List (Nat × α))
    (x : Nat) : x ∈ amKeys (amInsert k v m) ↔ x = k ∨ x ∈ amKeys m := by
  induction m with
  | nil => simp [amInsert, amKeys]
  | cons p rest ih =>
    obtain ⟨k', v'⟩ := p
    by_cases h1 : k < k'
    · simp [amInsert, amKeys, h1, or_assoc]
    · by_cases h2 : k = k'
      · subst h2
        simp only [amInsert, if_neg h1, if_pos rfl]
        simp [amKeys]
      · simp only [amInsert, if_neg h1, if_neg h2]
        simp only [amKeys, List.map_cons, List.mem_cons] at *
        rw [ih]
        tauto

/-- Insertion preserves strictly-increasing keys. -/
theorem amInsert_pairwise {α : Type} (k : Nat) (v : α) (m : List (Nat × α))
    (h : List.Pairwise (· < ·) (amKeys m)) :
    List.Pairwise (· < ·) (amKeys (amInsert k v m)) := by
  induction m with
  | nil => simp [amInsert, amKeys]
  | cons p rest ih =>
    obtain ⟨k', v'⟩ := p
    simp only [amKeys, List.map_cons, List.pairwise_cons] at h
    by_cases h1 : k < k'
    · simp only [amInsert, if_pos h1, amKeys, List.map_cons,
        List.pairwise_cons]
      refine ⟨?_, h.1, h.2⟩
      intro x hx
      rcases List.mem_cons.mp hx with heq | hmem
      · omega
      · have := h.1 x hmem
        omega
    · by_cases h2 : k = k'
      · subst h2
        simp only [amInsert, if_neg h1, eq_self_iff_true, ite_true, amKeys,
          List.map_cons, List.pairwise_cons]
        exact h
      · simp only [amInsert, if_neg h1, if_neg h2, amKeys, List.map_cons,
          List.pairwise_cons]
        refine ⟨?_, ih h.2⟩
        intro x hx
        have hx' := (amKeys_insert_mem k v rest x).mp hx
        rcases hx' with heq | hmem
        · omega
        · exact h.1 x hmem

/-- Every element of an insertion is the new pair or an old element. -/
theorem amInsert_mem_sub {α : Type} (k : Nat) (v : α) (m : List (Nat × α))
    (p : Nat × α) (hp : p ∈ amInsert k v m) : p = (k, v) ∨ p ∈ m := by
  induction m with
  | nil => simpa [amInsert] using hp
  | cons q rest ih =>
    obtain ⟨k', v'⟩ := q
    by_cases h1 : k < k'
    · rw [amInsert, if_pos h1] at hp
      simp only [List.mem_cons] at hp ⊢
      tauto
    · by_cases h2 : k = k'
      · rw [amInsert, if_neg h1, if_pos h2] at hp
        simp only [List.mem_cons] at hp ⊢
        tauto
      · rw [amInsert, if_neg h1, if_neg h2] at hp
        simp only [List.mem_cons] at hp ⊢
        rcases hp with hp | hp
        · tauto
        · rcases ih hp with hp | hp <;> tauto

theorem GetSortedKeys_of_sorted {α : Type} (w : List (Nat × α))
    (h : List.Pairwise (· < ·) (amKeys w)) : GetSortedKeys w = amKeys w :=
  List.Sorted.insertionSort_eq (List.Pairwise.imp (fun hx => le_of_lt hx) h)

/-- What the drain loop of preEncapsulated does on a sorted window whose
keys all lie above lastMsgIndex: it delivers the packets of the initial
run of consecutive keys lastMsgIndex+1, lastMsgIndex+2, ..., advancing
lastMsgIndex and both reliable borders by the run length and evicting the
delivered entries. -/
theorem drainLoop_spec (w : List (Nat × EncapsulatedPacket)) :
    ∀ (s : Session), s.reliableWindow = w →
    List.Pairwise (· < ·) (amKeys w) →
    (∀ k ∈ amKeys w, s.lastMsgIndex < k ∧ k + 1 < u32Mod) →
    s.lastMsgIndex + 1 < u32Mod →
    s.reliableBorder0 + w.length < u32Mod →
    s.reliableBorder1 + w.length < u32Mod →
    drainLoop (amKeys w) s =
      ({ s with
          lastMsgIndex := s.lastMsgIndex + runLen s.lastMsgIndex (amKeys w),
          reliableBorder0 :=
            s.reliableBorder0 + runLen s.lastMsgIndex (amKeys w),
          reliableBorder1 :=
            s.reliableBorder1 + runLen s.lastMsgIndex (amKeys w),
          reliableWindow := w.drop (runLen s.lastMsgIndex (amKeys w)) },
       (w.take (runLen s.lastMsgIndex (amKeys w))).map Prod.snd) := by
  induction w with
  | nil =>
    intro s hw _ _ _ _ _
    rw [show amKeys [] = ([] : List Nat) from rfl]
    simp only [drainLoop, runLen, Nat.add_zero, List.drop_nil, List.take_nil,
      List.map_nil]
    rw [← hw]
  | cons p w' ih =>
    obtain ⟨k, ep⟩ := p
    intro s hw hpw hkb hl hb0 hb1
    have hkeys : amKeys ((k, ep) :: w') = k :: amKeys w' := rfl
    have hk := hkb k (by simp [amKeys])
    have hiff : u32sub k s.lastMsgIndex = 1 ↔ k = s.lastMsgIndex + 1 :=
      u32sub_eq_one_iff k s.lastMsgIndex (by omega) hl
    rw [hkeys]
    by_cases hhit : k = s.lastMsgIndex + 1
    · -- the head key continues the run: deliver it and recurse
      have hde : ¬ u32sub k s.lastMsgIndex ≠ 1 := by
        simp only [ne_eq, not_not]
        exact hiff.mpr hhit
      rw [drainLoop, if_neg hde]
      have hadd1 : u32add s.lastMsgIndex 1 = s.lastMsgIndex + 1 :=
        u32add_small _ _ (by omega)
      have haddb0 : u32add s.reliableBorder0 1 = s.reliableBorder0 + 1 :=
        u32add_small _ _ (by simp at hb0; omega)
      have haddb1 : u32add s.reliableBorder1 1 = s.reliableBorder1 + 1 :=
        u32add_small _ _ (by simp at hb1; omega)
      have hget : amGet k s.reliableWindow = some ep := by
        rw [hw]
        simp [amGet]
      have herase : amErase k s.reliableWindow = w' := by
        rw [hw]
        simp [amErase]
      have hrec := ih
        { s with lastMsgIndex := u32add s.lastMsgIndex 1,
                 reliableBorder0 := u32add s.reliableBorder0 1,
                 reliableBorder1 := u32add s.reliableBorder1 1,
                 reliableWindow := amErase k s.reliableWindow }
        (by simpa using herase)
        ((List.pairwise_cons.mp hpw).2)
        (by
          intro x hx
          have hhead := (List.pairwise_cons.mp hpw).1 x hx
          have hb := hkb x (by rw [hkeys]; exact List.mem_cons_of_mem _ hx)
          simp only [hadd1]
          omega)
        (by simp only [hadd1]; omega)
        (by simp only [haddb0]; simp at hb0; omega)
        (by simp only [haddb1]; simp at hb1; omega)
      simp only [hget, Option.getD_some] at hrec ⊢
      rw [hrec]
      have hrun : runLen s.lastMsgIndex (k :: amKeys w') =
          runLen (s.lastMsgIndex + 1) (amKeys w') + 1 := by
        rw [runLen, if_pos hhit]
      simp only [Prod.mk.injEq, hadd1, haddb0, haddb1, hrun, herase]
      constructor
      · simp only [Session.mk.injEq, List.drop_succ_cons, eq_self_iff_true,
          and_true, true_and]
        omega
      · rw [List.take_succ_cons, List.map_cons]
    · -- the head key leaves a gap: the loop stops at once
      have hde : u32sub k s.lastMsgIndex ≠ 1 := fun hc => hhit (hiff.mp hc)
      rw [drainLoop, if_pos hde]
      have hrun : runLen s.lastMsgIndex (k :: amKeys w') = 0 := by
        rw [runLen, if_neg hhit]
      simp only [hrun, Nat.add_zero, List.drop_zero, List.take_zero,
        List.map_nil]
      rw [← hw]

/-- The reorder-buffer invariant: after a set P of message indices (all
below K) has been fed to preEncapsulated on a fresh session, d is the
count of delivered indices: 0..d−1 are exactly the delivered ones, the
window holds exactly the processed indices above d, lastMsgIndex holds
d−1 (wrapped), and the reliable borders frame [d, windowSize + d). -/
def RelInv (K : Nat) (P : List Nat) (d : Nat) (s : Session) : Prop :=
  (∀ i, i < d → i ∈ P) ∧
  d ∉ P ∧
  (∀ x ∈ P, x < K) ∧
  P.Nodup ∧
  s.reliableWindow.length + d = P.length ∧
  s.lastMsgIndex = (d + (u32Mod - 1)) % u32Mod ∧
  s.reliableBorder0 = d ∧
  s.reliableBorder1 = windowSize + d ∧
  List.Pairwise (· < ·) (amKeys s.reliableWindow) ∧
  (∀ k, k ∈ amKeys s.reliableWindow ↔ k ∈ P ∧ d < k) ∧
  (∀ p ∈ s.reliableWindow, p.2.MessageIndex = p.1)

/-- One step of the reorder buffer preserves the invariant and delivers
exactly the contiguous indices d, d+1, ..., d'−1. -/
theorem preEncapsulated_step (K : Nat) (hK : K ≤ windowSize)
    (P : List Nat) (d : Nat) (s : Session) (ep : EncapsulatedPacket)
    (hinv : RelInv K P d s)
    (hm : ep.MessageIndex < K) (hnew : ep.MessageIndex ∉ P)
    (hrel : 2 ≤ ep.Reliability ∧ ep.Reliability ≠ 5) :
    ∃ d', d ≤ d' ∧
      RelInv K (ep.MessageIndex :: P) d' (preEncapsulated s ep).1 ∧
      (preEncapsulated s ep).2.map EncapsulatedPacket.MessageIndex =
        List.range' d (d' - d) := by
  obtain ⟨h1, h2, h3, h4, h5, h6, h7, h8, h9, h10, h11⟩ := hinv
  have hK' : K ≤ 2048 := by simpa [windowSize] using hK
  have hdm : d ≤ ep.MessageIndex := by
    by_contra hc
    push_neg at hc
    exact hnew (h1 _ hc)
  have hdK : d < K := by omega
  have hPK : P.length ≤ K := nodup_lt_length_le P K h4 h3
  have hwlen : s.reliableWindow.length ≤ K := by omega
  have hwin : ¬ (ep.MessageIndex < s.reliableBorder0 ∨
      s.reliableBorder1 ≤ ep.MessageIndex) := by
    rw [h7, h8]
    push_neg
    refine ⟨by omega, ?_⟩
    simp only [windowSize]
    omega
  have hdiff : u32sub ep.MessageIndex s.lastMsgIndex =
      ep.MessageIndex - d + 1 := by
    rw [h6]
    refine u32sub_pred d _ hdm ?_ ?_
    · simp only [u32Mod]
      omega
    · simp only [u32Mod]
      omega
  by_cases hhit : ep.MessageIndex = d
  · -- in-order delivery, then drain the buffered run
    have hd1 : u32sub ep.MessageIndex s.lastMsgIndex = 1 := by
      rw [hdiff]
      omega
    have hadd1 : u32add s.lastMsgIndex 1 = d := by
      rw [h6]
      exact u32add_pred d (by simp only [u32Mod]; omega)
    have haddb0 : u32add s.reliableBorder0 1 = d + 1 := by
      rw [h7]
      exact u32add_small _ _ (by simp only [u32Mod]; omega)
    have haddb1 : u32add s.reliableBorder1 1 = windowSize + d + 1 := by
      rw [h8]
      exact u32add_small _ _ (by simp only [windowSize, u32Mod]; omega)
    have hkb : ∀ k ∈ amKeys s.reliableWindow, d < k ∧ k + 1 < u32Mod := by
      intro k hk
      have := (h10 k).mp hk
      have := h3 k this.1
      refine ⟨((h10 k).mp hk).2, ?_⟩
      simp only [u32Mod]
      omega
    have hkeyslen : (amKeys s.reliableWindow).length =
        s.reliableWindow.length := List.length_map _ _
    have hj := runLen_le d (amKeys s.reliableWindow)
    have htake := runLen_take d (amKeys s.reliableWindow)
    have hnotmem := runLen_next_not_mem d (amKeys s.reliableWindow) h9
      (fun k hk => ((h10 k).mp hk).2)
    have hdrain0 := drainLoop_spec s.reliableWindow
      { s with lastMsgIndex := u32add s.lastMsgIndex 1,
               reliableBorder0 := u32add s.reliableBorder0 1,
               reliableBorder1 := u32add s.reliableBorder1 1 }
      rfl h9
      (by
        intro k hk
        show u32add s.lastMsgIndex 1 < k ∧ k + 1 < u32Mod
        rw [hadd1]
        exact hkb k hk)
      (by
        show u32add s.lastMsgIndex 1 + 1 < u32Mod
        rw [hadd1]
        simp only [u32Mod]
        omega)
      (by
        show u32add s.reliableBorder0 1 + s.reliableWindow.length < u32Mod
        rw [haddb0]
        simp only [u32Mod]
        omega)
      (by
        show u32add s.reliableBorder1 1 + s.reliableWindow.length < u32Mod
        rw [haddb1]
        simp only [windowSize, u32Mod]
        omega)
    have hdrain : drainLoop (amKeys s.reliableWindow)
        { s with lastMsgIndex := u32add s.lastMsgIndex 1,
                 reliableBorder0 := u32add s.reliableBorder0 1,
                 reliableBorder1 := u32add s.reliableBorder1 1 } =
        ({ s with
            lastMsgIndex := d + runLen d (amKeys s.reliableWindow),
            reliableBorder0 := d + 1 + runLen d (amKeys s.reliableWindow),
            reliableBorder1 :=
              windowSize + d + 1 + runLen d (amKeys s.reliableWindow),
            reliableWindow :=
              s.reliableWindow.drop (runLen d (amKeys s.reliableWindow)) },
         (s.reliableWindow.take (runLen d (amKeys s.reliableWindow))).map
           Prod.snd) := by
      rw [hdrain0]
      simp only [hadd1, haddb0, haddb1, Prod.mk.injEq, Session.mk.injEq,
        eq_self_iff_true, and_true, true_and]
    have hpre : preEncapsulated s ep =
        ({ s with
            lastMsgIndex := d + runLen d (amKeys s.reliableWindow),
            reliableBorder0 := d + 1 + runLen d (amKeys s.reliableWindow),
            reliableBorder1 :=
              windowSize + d + 1 + runLen d (amKeys s.reliableWindow),
            reliableWindow :=
              s.reliableWindow.drop (runLen d (amKeys s.reliableWindow)) },
         ep :: (s.reliableWindow.take
           (runLen d (amKeys s.reliableWindow))).map Prod.snd) := by
      by_cases hwnil : s.reliableWindow = []
      · have hj0 : runLen d (amKeys ([] : List (Nat × EncapsulatedPacket))) = 0 :=
          rfl
        simp only [preEncapsulated, if_pos hrel, if_neg hwin, if_pos hd1,
          hwnil, List.length_nil, Nat.lt_irrefl, ite_false, hj0,
          List.drop_nil, List.take_nil, List.map_nil, Nat.add_zero,
          Prod.mk.injEq, Session.mk.injEq, hadd1, haddb0, haddb1,
          eq_self_iff_true, and_true, true_and]
      · have hlen : 0 < s.reliableWindow.length := List.length_pos.mpr hwnil
        simp only [preEncapsulated, if_pos hrel, if_neg hwin, if_pos hd1,
          if_pos hlen]
        rw [GetSortedKeys_of_sorted _ h9, hdrain]
    refine ⟨d + 1 + runLen d (amKeys s.reliableWindow), by omega, ?_, ?_⟩
    · -- the invariant at the new delivery point
      rw [hpre]
      set j := runLen d (amKeys s.reliableWindow) with hjdef
      have hsplit := List.take_append_drop j (amKeys s.reliableWindow)
      have hta : ∀ x ∈ (amKeys s.reliableWindow).take j,
          ∀ y ∈ (amKeys s.reliableWindow).drop j, x < y := by
        have := h9
        rw [← hsplit] at this
        exact (List.pairwise_append.mp this).2.2
      have hdropmem : ∀ k, k ∈ (amKeys s.reliableWindow).drop j →
          k ∈ amKeys s.reliableWindow := fun k hk =>
        List.drop_subset _ _ hk
      have hdrop_iff : ∀ k, k ∈ (amKeys s.reliableWindow).drop j ↔
          (k ∈ ep.MessageIndex :: P ∧ d + 1 + j < k) := by
        intro k
        constructor
        · intro hk
          have hmem := hdropmem k hk
          have hPk := (h10 k).mp hmem
          have hne : k ≠ d + 1 + j := fun hc => hnotmem (hc ▸ hmem)
          have hgt : d + j < k := by
            by_cases hj0 : j = 0
            · have := hPk.2
              omega
            · have hdj : d + j ∈ (amKeys s.reliableWindow).take j := by
                rw [htake]
                have : d + j = d + 1 + (j - 1) := by omega
                rw [this]
                exact List.mem_range'.mpr ⟨j - 1, by omega, by ring⟩
              exact hta _ hdj _ hk
          refine ⟨List.mem_cons_of_mem _ hPk.1, by omega⟩
        · intro ⟨hkP, hkgt⟩
          have hkP' : k ∈ P := by
            rcases List.mem_cons.mp hkP with hc | hc
            · omega
            · exact hc
          have hkeys : k ∈ amKeys s.reliableWindow :=
            (h10 k).mpr ⟨hkP', by omega⟩
          have hnot_take : k ∉ (amKeys s.reliableWindow).take j := by
            rw [htake]
            intro hc
            have := List.mem_range'.mp hc
            obtain ⟨i, hi, hival⟩ := this
            omega
          rw [← hsplit] at hkeys
          rcases List.mem_append.mp hkeys with hc | hc
          · exact absurd hc hnot_take
          · exact hc
      refine ⟨?_, ?_, ?_, ?_, ?_, ?_, rfl, ?_, ?_, ?_, ?_⟩
      · intro i hi
        by_cases hc : i < d
        · exact List.mem_cons_of_mem _ (h1 i hc)
        · by_cases hc2 : i = d
          · rw [hc2, ← hhit]
            exact List.mem_cons_self _ _
          · have hik : i = d + 1 + (i - d - 1) := by omega
            have : i ∈ amKeys s.reliableWindow := by
              rw [hik]
              exact runLen_mem d _ _ (by omega)
            exact List.mem_cons_of_mem _ ((h10 i).mp this).1
      · intro hc
        rcases List.mem_cons.mp hc with hc | hc
        · omega
        · have : d + 1 + j ∈ amKeys s.reliableWindow :=
            (h10 _).mpr ⟨hc, by omega⟩
          exact hnotmem this
      · intro x hx
        rcases List.mem_cons.mp hx with hc | hc
        · omega
        · exact h3 x hc
      · exact List.nodup_cons.mpr ⟨hnew, h4⟩
      · simp only [List.length_drop, List.length_cons]
        rw [← hkeyslen]
        omega
      · simp only []
        simp only [u32Mod]
        omega
      · simp only [windowSize]
        omega
      · have : amKeys (s.reliableWindow.drop j) =
            (amKeys s.reliableWindow).drop j := by
          simp [amKeys, List.map_drop]
        rw [this]
        exact List.Pairwise.sublist (List.drop_sublist _ _) h9
      · intro k
        have : amKeys (s.reliableWindow.drop j) =
            (amKeys s.reliableWindow).drop j := by
          simp [amKeys, List.map_drop]
        rw [this]
        exact hdrop_iff k
      · intro p hp
        exact h11 p (List.drop_subset _ _ hp)
    · -- the delivered run is d, d+1, ..., d+j
      rw [hpre]
      simp only [List.map_cons, List.map_map]
      have hcongr : (s.reliableWindow.take
          (runLen d (amKeys s.reliableWindow))).map
          (EncapsulatedPacket.MessageIndex ∘ Prod.snd) =
          (s.reliableWindow.take (runLen d (amKeys s.reliableWindow))).map
            Prod.fst := by
        refine List.map_congr_left ?_
        intro p hp
        exact h11 p (List.mem_of_mem_take hp)
      rw [hcongr]
      have : (s.reliableWindow.take (runLen d (amKeys s.reliableWindow))).map
          Prod.fst = (amKeys s.reliableWindow).take
            (runLen d (amKeys s.reliableWindow)) := by
        simp [amKeys, List.map_take]
      rw [this, runLen_take]
      have harith : d + 1 + runLen d (amKeys s.reliableWindow) - d =
          runLen d (amKeys s.reliableWindow) + 1 := by omega
      rw [harith, List.range'_succ, hhit]
  · -- a gap: the packet is buffered
    have hgap : ep.MessageIndex ≠ d := hhit
    have hd1 : ¬ u32sub ep.MessageIndex s.lastMsgIndex = 1 := by
      rw [hdiff]
      omega
    have hpre : preEncapsulated s ep =
        ({ s with reliableWindow :=
            amInsert ep.MessageIndex ep s.reliableWindow }, []) := by
      unfold preEncapsulated
      rw [if_pos hrel, if_neg hwin, if_neg hd1]
    refine ⟨d, le_rfl, ?_, by rw [hpre]; simp⟩
    rw [hpre]
    have hnotkey : ep.MessageIndex ∉ amKeys s.reliableWindow := by
      intro hc
      exact hnew ((h10 _).mp hc).1
    refine ⟨?_, ?_, ?_, ?_, ?_, h6, h7, h8, ?_, ?_, ?_⟩
    · intro i hi
      exact List.mem_cons_of_mem _ (h1 i hi)
    · intro hc
      rcases List.mem_cons.mp hc with hc | hc
      · omega
      · exact h2 hc
    · intro x hx
      rcases List.mem_cons.mp hx with hc | hc
      · omega
      · exact h3 x hc
    · exact List.nodup_cons.mpr ⟨hnew, h4⟩
    · simp only [List.length_cons]
      rw [amInsert_length _ _ _ hnotkey]
      omega
    · exact amInsert_pairwise _ _ _ h9
    · intro k
      rw [amKeys_insert_mem]
      constructor
      · intro hc
        rcases hc with hc | hc
        · subst hc
          exact ⟨List.mem_cons_self _ _, by omega⟩
        · have := (h10 k).mp hc
          exact ⟨List.mem_cons_of_mem _ this.1, this.2⟩
      · intro ⟨hkP, hkgt⟩
        rcases List.mem_cons.mp hkP with hc | hc
        · exact Or.inl hc
        · exact Or.inr ((h10 k).mpr ⟨hc, hkgt⟩)
    · intro p hp
      rcases amInsert_mem_sub _ _ _ _ hp with hc | hc
      · rw [hc]
      · exact h11 p hc

/-- Feeding a list of in-window reliable packets with fresh, pairwise
distinct message indices through the reorder buffer preserves the
invariant; the delivered indices are exactly the contiguous run
d, d+1, ..., d2-1. -/
theorem preEncapsulatedAll_inv (K : Nat) (hK : K ≤ windowSize)
    (l : List EncapsulatedPacket) :
    ∀ (P : List Nat) (d : Nat) (s : Session),
      RelInv K P d s →
      (∀ ep ∈ l,
        ep.MessageIndex < K ∧ 2 ≤ ep.Reliability ∧ ep.Reliability ≠ 5) →
      (l.map EncapsulatedPacket.MessageIndex).Nodup →
      (∀ ep ∈ l, ep.MessageIndex ∉ P) →
      ∃ d2, d ≤ d2 ∧
        RelInv K ((l.map EncapsulatedPacket.MessageIndex).reverse ++ P) d2
          (preEncapsulatedAll s l).1 ∧
        (preEncapsulatedAll s l).2.map EncapsulatedPacket.MessageIndex =
          List.range' d (d2 - d) := by
  induction l with
  | nil =>
    intro P d s hinv _ _ _
    exact ⟨d, le_rfl, by simpa [preEncapsulatedAll] using hinv,
      by simp [preEncapsulatedAll]⟩
  | cons ep rest ih =>
    intro P d s hinv hok hnd hfresh
    obtain ⟨hmK, hrel⟩ := hok ep (List.mem_cons_self _ _)
    obtain ⟨d1, hdd1, hinv1, hdel1⟩ :=
      preEncapsulated_step K hK P d s ep hinv hmK
        (hfresh ep (List.mem_cons_self _ _)) hrel
    have hnd0 : ep.MessageIndex ∉ rest.map EncapsulatedPacket.MessageIndex ∧
        (rest.map EncapsulatedPacket.MessageIndex).Nodup := by
      simpa [List.map_cons, List.nodup_cons] using hnd
    obtain ⟨d2, hdd2, hinv2, hdel2⟩ :=
      ih (ep.MessageIndex :: P) d1 (preEncapsulated s ep).1 hinv1
        (fun e he => hok e (List.mem_cons_of_mem _ he))
        hnd0.2
        (by
          intro e he
          simp only [List.mem_cons, not_or]
          refine ⟨?_, hfresh e (List.mem_cons_of_mem _ he)⟩
          intro hc
          exact hnd0.1
            (hc ▸ List.mem_map_of_mem EncapsulatedPacket.MessageIndex he))
    refine ⟨d2, le_trans hdd1 hdd2, ?_, ?_⟩
    · have hPrw :
          ((ep :: rest).map EncapsulatedPacket.MessageIndex).reverse ++ P =
          (rest.map EncapsulatedPacket.MessageIndex).reverse ++
            ep.MessageIndex :: P := by
        simp [List.map_cons, List.reverse_cons]
      rw [hPrw]
      simpa [preEncapsulatedAll] using hinv2
    · simp only [preEncapsulatedAll, List.map_append, hdel1, hdel2]
      have h12 : List.range' d (d1 - d) ++
          List.range' (d + (d1 - d)) (d2 - d1) =
          List.range' d ((d2 - d1) + (d1 - d)) :=
        List.range'_append_1 d (d1 - d) (d2 - d1)
      have hdd : d + (d1 - d) = d1 := by omega
      rw [hdd] at h12
      rw [h12]
      congr 1
      omega

/-- A fresh session satisfies the reorder-buffer invariant with nothing
yet processed. -/
theorem RelInv_NewSession (K : Nat) : RelInv K [] 0 NewSession := by
  refine ⟨fun i hi => absurd hi (Nat.not_lt_zero i), List.not_mem_nil 0,
    fun x hx => absurd hx (List.not_mem_nil x), List.nodup_nil, rfl, ?_,
    rfl, rfl, List.Pairwise.nil, ?_, fun p hp => absurd hp (List.not_mem_nil p)⟩
  · show u32Mod - 1 = (0 + (u32Mod - 1)) % u32Mod
    simp [u32Mod]
  · intro k
    show k ∈ amKeys ([] : List (Nat × EncapsulatedPacket)) ↔ _
    simp [amKeys]

/-- Helper for the reorder-delivery claim: a fresh session fed any
permutation of reliable packets carrying message indices 0..K-1, with K at
most the reliable window width, hands them onward exactly in ascending
order 0, 1, ..., K-1. -/
theorem preEncapsulatedAll_range_delivery (K : Nat) (hK : K ≤ windowSize)
    (l : List EncapsulatedPacket)
    (hperm : (l.map EncapsulatedPacket.MessageIndex).Perm (List.range K))
    (hrel : ∀ ep ∈ l, 2 ≤ ep.Reliability ∧ ep.Reliability ≠ 5) :
    (preEncapsulatedAll NewSession l).2.map EncapsulatedPacket.MessageIndex =
      List.range K := by
  have hok : ∀ ep ∈ l,
      ep.MessageIndex < K ∧ 2 ≤ ep.Reliability ∧ ep.Reliability ≠ 5 := by
    intro ep hep
    refine ⟨?_, hrel ep hep⟩
    exact List.mem_range.mp
      (hperm.mem_iff.mp (List.mem_map_of_mem _ hep))
  have hnd : (l.map EncapsulatedPacket.MessageIndex).Nodup :=
    hperm.nodup_iff.mpr (List.nodup_range K)
  obtain ⟨d2, hd0, hinv2, hdel⟩ :=
    preEncapsulatedAll_inv K hK l [] 0 NewSession (RelInv_NewSession K) hok hnd
      (fun ep _ => List.not_mem_nil _)
  obtain ⟨g1, g2, g3, _⟩ := hinv2
  have hmemP : ∀ x,
      x ∈ (l.map EncapsulatedPacket.MessageIndex).reverse ++ ([] : List Nat) ↔
      x < K := by
    intro x
    simp only [List.append_nil, List.mem_reverse]
    rw [hperm.mem_iff]
    exact List.mem_range
  have hdK : d2 = K := by
    by_contra hne
    rcases Nat.lt_or_ge d2 K with hlt | hge
    · exact g2 ((hmemP d2).mpr hlt)
    · have hKd : K < d2 := by omega
      have hmem := (hmemP K).mp (g1 K hKd)
      omega
  rw [hdel, hdK]
  simp [List.range_eq_range']

/-- A reliable (reliability 2) encapsulated packet carrying only a message
index, as fed to the reorder buffer in the delivery claims. -/
def mkRel (n : Nat) : EncapsulatedPacket :=
  { Reliability := 2, MessageIndex := n }

theorem mkRel_MessageIndex (n : Nat) : (mkRel n).MessageIndex = n := rfl

theorem mkRel_ok (n : Nat) :
    2 ≤ (mkRel n).Reliability ∧ (mkRel n).Reliability ≠ 5 :=
  ⟨le_rfl, by show (2 : Nat) ≠ 5; decide⟩

/-- C1 (amended): for K at most the reliable window width 2048, a fresh
session fed reliable packets with message indices an arbitrary permutation
of 0..K-1 hands them to handleEncapsulated exactly in ascending order
0, 1, ..., K-1, each exactly once, with no gaps. -/
theorem reliable_reorder_delivery (K : Nat) (hK : K ≤ windowSize)
    (l : List EncapsulatedPacket)
    (hperm : (l.map EncapsulatedPacket.MessageIndex).Perm (List.range K))
    (hrel : ∀ ep ∈ l, 2 ≤ ep.Reliability ∧ ep.Reliability ≠ 5) :
    (preEncapsulatedAll NewSession l).2.map EncapsulatedPacket.MessageIndex =
      List.range K :=
  preEncapsulatedAll_range_delivery K hK l hperm hrel

/-- C1 witness: the permutation 1, 0, 2 of indices 0..2 is delivered as
0, 1, 2. -/
theorem reliable_reorder_delivery_witness :
    (3 ≤ windowSize ∧
      ([mkRel 1, mkRel 0, mkRel 2].map
          EncapsulatedPacket.MessageIndex).Perm (List.range 3) ∧
      (∀ ep ∈ [mkRel 1, mkRel 0, mkRel 2],
        2 ≤ ep.Reliability ∧ ep.Reliability ≠ 5)) ∧
    (preEncapsulatedAll NewSession
        [mkRel 1, mkRel 0, mkRel 2]).2.map EncapsulatedPacket.MessageIndex =
      List.range 3 :=
  ⟨⟨by decide, by decide, by decide⟩,
    reliable_reorder_delivery 3 (by decide) [mkRel 1, mkRel 0, mkRel 2]
      (by decide) (by decide)⟩

/-- C1 counterexample: without the K ≤ 2048 bound the claim fails.  With
K = 2049 and index 2048 arriving first, the fresh session's reliable
window is [reliableBorder0, reliableBorder1) = [0, 2048), so that packet
is dropped (not buffered) and the session delivers only 0..2047: the claim
promises delivery of 0..2048. -/
theorem reliable_reorder_window_overflow :
    ((mkRel 2048 :: (List.range 2048).map mkRel).map
        EncapsulatedPacket.MessageIndex).Perm (List.range 2049) ∧
    (∀ ep ∈ mkRel 2048 :: (List.range 2048).map mkRel,
      2 ≤ ep.Reliability ∧ ep.Reliability ≠ 5) ∧
    (preEncapsulatedAll NewSession
        (mkRel 2048 :: (List.range 2048).map mkRel)).2.map
      EncapsulatedPacket.MessageIndex ≠ List.range 2049 := by
  have hmap : ((List.range 2048).map mkRel).map
      EncapsulatedPacket.MessageIndex = List.range 2048 := by
    rw [List.map_map,
      show EncapsulatedPacket.MessageIndex ∘ mkRel = id from funext fun n => rfl,
      List.map_id]
  refine ⟨?_, ?_, ?_⟩
  · have h1 : (mkRel 2048 :: (List.range 2048).map mkRel).map
        EncapsulatedPacket.MessageIndex = 2048 :: List.range 2048 := by
      rw [List.map_cons, hmap, mkRel_MessageIndex]
    have h2 : List.range 2049 = List.range 2048 ++ [2048] := by
      rw [show (2049 : Nat) = 2048 + 1 from rfl, List.range_succ]
    rw [h1, h2]
    exact (List.perm_append_singleton _ _).symm
  · intro ep hep
    rcases List.mem_cons.mp hep with h | h
    · rw [h]
      exact mkRel_ok 2048
    · obtain ⟨n, _, rfl⟩ := List.mem_map.mp h
      exact mkRel_ok n
  · have hfirst : preEncapsulated NewSession (mkRel 2048) =
        (NewSession, []) := rfl
    have hsplit : ∀ (t : List EncapsulatedPacket),
        (preEncapsulatedAll NewSession (mkRel 2048 :: t)).2 =
        (preEncapsulatedAll NewSession t).2 := by
      intro t
      simp only [preEncapsulatedAll, hfirst, List.nil_append]
    have htail : (preEncapsulatedAll NewSession
        ((List.range 2048).map mkRel)).2.map
        EncapsulatedPacket.MessageIndex = List.range 2048 := by
      refine preEncapsulatedAll_range_delivery 2048 le_rfl _ ?_ ?_
      · rw [hmap]
      · intro ep hep
        obtain ⟨n, _, rfl⟩ := List.mem_map.mp hep
        exact mkRel_ok n
    rw [hsplit, htail]
    intro hcontra
    have hlen := congrArg List.length hcontra
    simp only [List.length_range] at hlen
    omega


end HighMC
